import Mathlib

/-!
# prometheus_scollector: a shallow embedding and its verified properties

The development follows `utils/utils.go` (name sanitizer) and
`scollector/scollector.go` (sample store, ingestion handler, export).

Modelling conventions.

* A Go `string` is a Lean `String`; `range` over a string and `strings.Map`
  see it as its sequence of runes, here `String.data`.
* A Go `rune` (int32) is an `Int`, so that the negative "drop" value used by
  `ClearName` is representable.
* A Go `map[string]T` is a `GoMap T`: a key-unique association list.  The list
  order stands for one possible iteration order; theorems quantify over all maps,
  hence over all orders.  A `range` loop that mutates the map it ranges over takes
  its visit sequence as an explicit argument.
* `time.Time` and `time.Duration` are integers of nanoseconds (instants counted
  from the Unix epoch); the 64-bit range of the `time` package is not modelled.
* The Prometheus client library is not part of the repository.  The check that
  `prometheus.NewDesc` makes of a descriptor is a parameter of `Collect`, and
  `prometheus.MustNewConstMetric` panics where that check fails; `namesOk` is the part
  of the check that concerns the metric name and the label names.
* The goroutine `processSamples` and the HTTP handlers are modelled sequentially:
  a channel send is an element appended to the list of submitted samples, which
  the store owner consumes in order.
-/

namespace Scollector

/-! ## Runes and `strings.Map` -/

/-- Go `rune`: a 32-bit signed integer, kept as an unbounded integer. -/
abbrev Rune := Int

/-- The rune of a character literal. -/
def runeOf (c : Char) : Rune := (c.toNat : Int)

/-- Go `utf8.RuneError`, U+FFFD. -/
def RuneError : Char := Char.ofNat 0xFFFD

/-- Writing a non-negative rune to a `strings.Builder`: a rune that is not a Unicode
scalar value (a surrogate, or above U+10FFFF) is written as `utf8.RuneError`. -/
def writeRune (r : Rune) : Char :=
  if r.toNat < 0xD800 ∨ (0xDFFF < r.toNat ∧ r.toNat < 0x110000) then Char.ofNat r.toNat
  else RuneError

/-- Go `strings.Map` over the runes of a string, for a mapping closure with captured
state `σ`: the closure is called once per rune, in order; a negative result drops the
rune, any other result is written to the output. -/
def stringsMap {σ : Type} (mapping : σ → Char → σ × Rune) : σ → List Char → List Char
  | _, [] => []
  | st, c :: cs =>
    let res := mapping st c
    if 0 ≤ res.2 then writeRune res.2 :: stringsMap mapping res.1 cs
    else stringsMap mapping res.1 cs

/-! ## `utils.ClearName` -/

/-- The closure passed to `strings.Map` by `ClearName`; its captured counter `i` is the
state, incremented on entry. -/
def ClearName.mapping (allowColon : Bool) (replaceRune : Rune) (i : Int) (r : Char) :
    Int × Rune :=
  let i := i + 1
  if r = '.' then (i, runeOf '_')
  else if ('a' ≤ r ∧ r ≤ 'z') ∨ ('A' ≤ r ∧ r ≤ 'Z') ∨ r = '_' then (i, runeOf r)
  else if allowColon = true ∧ r = ':' then (i, runeOf r)
  else if 0 < i ∧ '0' ≤ r ∧ r ≤ '9' then (i, runeOf r)
  else (i, replaceRune)

/-- Go `utils.ClearName`: replaces non-allowed characters. -/
def ClearName (txt : String) (allowColon : Bool) (replaceRune : Rune) : String :=
  let replaceRune := if replaceRune = 0 then -1 else replaceRune
  String.mk (stringsMap (ClearName.mapping allowColon replaceRune) (-1) txt.data)

/-- The character the specification prescribes at position `i` of a sanitized name:
a dot is folded to an underscore; an ASCII letter, an underscore, a colon when colons
are allowed, and a digit past the first position are kept; anything else becomes the
placeholder `p`. -/
def sanitizedChar (allowColon : Bool) (p : Char) (i : Nat) (c : Char) : Char :=
  if c = '.' then '_'
  else if c.isAlpha = true ∨ c = '_' ∨ (c = ':' ∧ allowColon = true) ∨
      (c.isDigit = true ∧ 0 < i) then c
  else p

/-! ## Go maps -/

/-- A Go `map[string]α`: finitely many entries, at most one per key.  The order of
`entries` stands for an iteration order, which Go leaves unspecified. -/
structure GoMap (α : Type) where
  entries : List (String × α)
  nodupKeys : (entries.map Prod.fst).Nodup

namespace GoMap

variable {α : Type}

/-- The empty map (`make(map[string]α)`, or a nil map that is only read). -/
def empty : GoMap α := ⟨[], List.nodup_nil⟩

/-- The keys, in iteration order. -/
def keys (m : GoMap α) : List String := m.entries.map Prod.fst

/-- The values, in iteration order. -/
def values (m : GoMap α) : List α := m.entries.map Prod.snd

/-- Go `v, ok := m[k]`. -/
def get? (m : GoMap α) (k : String) : Option α :=
  (m.entries.find? (fun e => e.1 = k)).map Prod.snd

/-- Whether key `k` has an entry. -/
def contains (m : GoMap α) (k : String) : Bool := (m.get? k).isSome

/-- Go `delete(m, k)`. -/
def delete (m : GoMap α) (k : String) : GoMap α :=
  ⟨m.entries.filter (fun e => e.1 ≠ k),
    m.nodupKeys.sublist ((List.filter_sublist m.entries).map Prod.fst)⟩

/-- Go `m[k] = v`: the entry under `k`, if any, is replaced. -/
def set (m : GoMap α) (k : String) (v : α) : GoMap α :=
  ⟨(k, v) :: m.entries.filter (fun e => e.1 ≠ k), by
    rw [List.map_cons, List.nodup_cons]
    refine ⟨?_, m.nodupKeys.sublist ((List.filter_sublist m.entries).map Prod.fst)⟩
    intro h
    obtain ⟨e, he, hk⟩ := List.mem_map.1 h
    have := (List.mem_filter.1 he).2
    simp only [ne_eq, decide_not, Bool.not_eq_eq_eq_not, Bool.not_true, decide_eq_false_iff_not]
      at this
    exact this hk⟩

/-- Two maps hold the same mapping: every key has the same value, or none, in both. -/
def SameMapping (m₁ m₂ : GoMap α) : Prop := ∀ k, m₁.get? k = m₂.get? k

/-- Go `m[k]` on a `map[string]string`: the zero value `""` for a missing key. -/
def getD (m : GoMap String) (k : String) : String := (m.get? k).getD ""

end GoMap

/-! ## Time -/

/-- Go `time.Time`: an instant, as nanoseconds since the Unix epoch. -/
structure Time where
  unixNano : Int
  deriving DecidableEq

/-- Go `time.Duration`: nanoseconds. -/
abbrev Duration := Int

/-- Go `time.Millisecond`. -/
def Millisecond : Duration := 1000000

/-- Go `time.Unix(sec, nsec)`: `sec` seconds and `nsec` nanoseconds since the epoch;
`nsec` may lie outside `[0, 999999999]`. -/
def Time.Unix (sec nsec : Int) : Time := ⟨sec * 1000000000 + nsec⟩

/-- Go `t.Add(d)`. -/
def Time.Add (t : Time) (d : Duration) : Time := ⟨t.unixNano + d⟩

/-- Go `t.After(u)`: whether `t` is strictly after `u`. -/
def Time.After (t u : Time) : Bool := decide (u.unixNano < t.unixNano)

/-- Whole seconds since the epoch (Go `t.Unix()`). -/
def Time.seconds (t : Time) : Int := t.unixNano / 1000000000

/-- The sub-second part in nanoseconds (Go `t.Nanosecond()`). -/
def Time.nanosecond (t : Time) : Int := t.unixNano % 1000000000

/-! ## Samples and series identity -/

/-- Go `prometheus.ValueType`. -/
inductive ValueType where
  | CounterValue
  | GaugeValue
  | UntypedValue
  deriving DecidableEq

/-- Go `scollectorSample`.  The field `Typ` is the source field `Type`. -/
structure scollectorSample where
  Name : String
  Labels : GoMap String
  Help : String
  Value : Float
  Typ : ValueType
  Timestamp : Time

/-- Go `sort.Strings`: ascending order, comparing strings lexicographically by code
point (which is the byte order of their UTF-8 encodings). -/
def sortStrings (l : List String) : List String :=
  l.insertionSort (fun a b => a.data ≤ b.data)

/-- Go `strings.Join(elems, sep)`. -/
def stringsJoin : List String → String → String
  | [], _ => ""
  | [a], _ => a
  | a :: b :: rest, sep => a ++ sep ++ stringsJoin (b :: rest) sep

/-- Go `scollectorSample.NameWithLabels`. -/
def scollectorSample.NameWithLabels (s : scollectorSample) : String :=
  let labels := s.Labels.entries.foldl (fun labels e => labels ++ [e.1 ++ "=" ++ e.2]) []
  let labels := sortStrings labels
  s.Name ++ "#" ++ stringsJoin labels ";"

/-! ## The collector: store owner and export -/

/-- Go `ScollectorCollector`, without its channel and mutex. -/
structure ScollectorCollector where
  samples : GoMap scollectorSample
  types : GoMap String
  ReplacingsTags : GoMap String
  expiryTimes : Duration

/-- Go `NewScollectorCollector`. -/
def NewScollectorCollector (expiryTimes : Duration) : ScollectorCollector :=
  { samples := GoMap.empty, types := GoMap.empty, ReplacingsTags := GoMap.empty,
    expiryTimes := expiryTimes }

/-- The two events the store owner `processSamples` selects on: a sample received on
the channel, and a tick of the sweep timer at wall-clock time `now`. -/
inductive StoreEvent where
  | recv (sample : scollectorSample)
  | tick (now : Time)

/-- The upsert of `processSamples`: `c.samples[sample.NameWithLabels()] = sample`. -/
def ScollectorCollector.store (c : ScollectorCollector) (sample : scollectorSample) :
    ScollectorCollector :=
  { c with samples := c.samples.set sample.NameWithLabels sample }

/-- The sweep of `processSamples` at time `now`: ranges over the stored entries and
deletes each one whose timestamp the age limit is after. -/
def ScollectorCollector.sweep (c : ScollectorCollector) (now : Time) : ScollectorCollector :=
  let ageLimit := now.Add (-c.expiryTimes)
  { c with
    samples := c.samples.entries.foldl
      (fun samples e => if ageLimit.After e.2.Timestamp then samples.delete e.1 else samples)
      c.samples }

/-- One iteration of the loop of `processSamples`. -/
def processSamples.step (c : ScollectorCollector) : StoreEvent → ScollectorCollector
  | .recv sample => c.store sample
  | .tick now => c.sweep now

/-- What `Collect` sends on the metrics channel: the package-level gauge
`lastProcessed`, or a constant metric with the given name, help, constant labels, kind
and value. -/
inductive Metric where
  | lastProcessed
  | constMetric (fqName help : String) (constLabels : GoMap String) (valueType : ValueType)
      (value : Float)

/-- The check of `prometheus.NewDesc(fqName, help, []string{}, constLabels)`: whether
the descriptor is built without an error.  The library is not part of the repository,
so the check is a parameter of the export. -/
abbrev DescCheck := String → String → GoMap String → Bool

/-- Go `prometheus.MustNewConstMetric(prometheus.NewDesc(fqName, help, []string{},
constLabels), valueType, value)`: the constant metric, or `none` for the panic on a
descriptor that carries an error. -/
def MustNewConstMetric (descOk : DescCheck) (fqName help : String)
    (constLabels : GoMap String) (valueType : ValueType) (value : Float) : Option Metric :=
  if descOk fqName help constLabels then
    some (Metric.constMetric fqName help constLabels valueType value)
  else none

/-- The outcome of one call of `Collect`: the metrics sent on `ch`, in order, and
whether the call ended in a panic. -/
structure CollectResult where
  sent : List Metric
  panicked : Bool

/-- The loop `for _, sample := range samples` of `Collect`, from the metrics `ch` sent
so far: a sample the age limit is after is skipped; for any other sample the metric is
built, which may panic, and sent. -/
def Collect.loop (descOk : DescCheck) (ageLimit : Time) :
    List scollectorSample → List Metric → CollectResult
  | [], ch => { sent := ch, panicked := false }
  | sample :: rest, ch =>
    if ageLimit.After sample.Timestamp then Collect.loop descOk ageLimit rest ch
    else
      match MustNewConstMetric descOk sample.Name sample.Help sample.Labels sample.Typ
          sample.Value with
      | none => { sent := ch, panicked := true }
      | some metric => Collect.loop descOk ageLimit rest (ch ++ [metric])

/-- Go `ScollectorCollector.Collect` at wall-clock time `now`: the gauge is sent, the
stored samples are copied, and the copy is filtered by age and sent. -/
def ScollectorCollector.Collect (descOk : DescCheck) (c : ScollectorCollector)
    (now : Time) : CollectResult :=
  let ch : List Metric := [Metric.lastProcessed]
  let samples := c.samples.entries.foldl (fun samples e => samples ++ [e.2]) []
  let ageLimit := now.Add (-c.expiryTimes)
  Collect.loop descOk ageLimit samples ch

/-- The metric-name check of the Prometheus data model: `[a-zA-Z_:][a-zA-Z0-9_:]*`. -/
def isValidMetricName (n : String) : Bool :=
  match n.data with
  | [] => false
  | c :: cs =>
    (c.isAlpha || c == '_' || c == ':') &&
      cs.all (fun d => d.isAlphanum || d == '_' || d == ':')

/-- Go `prometheus.checkLabelName`: a label name `[a-zA-Z_][a-zA-Z0-9_]*` that does
not start with the reserved `__`. -/
def checkLabelName (l : String) : Bool :=
  match l.data with
  | [] => false
  | '_' :: '_' :: _ => false
  | c :: cs => (c.isAlpha || c == '_') && cs.all (fun d => d.isAlphanum || d == '_')

/-- The checks of `prometheus.NewDesc` on the metric name and on the names of the
constant labels.  Whatever else a version of the library checks, it rejects what these
checks reject. -/
def namesOk : DescCheck := fun fqName _ constLabels =>
  isValidMetricName fqName && constLabels.keys.all checkLabelName

/-! ## The ingestion handler -/

/-- The dynamic type of `opentsdb.DataPoint.Value` (an `interface{}`), by the cases
of the type switch of `HandleScoll`; `other` stands for every remaining dynamic type
(bool, nil, slices, maps). -/
inductive Value where
  | float64 (x : Float)
  | int (x : Int)
  | int64 (x : Int)
  | int32 (x : Int)
  | string (x : String)
  | other

/-- Go `opentsdb.DataPoint`; a nil tag set is the empty map. -/
structure DataPoint where
  Metric : String
  Timestamp : Int
  Value : Value
  Tags : GoMap String

/-- Wrap-around of a mathematical integer to the range of Go `int64`. -/
def wrapInt64 (x : Int) : Int := (x + 2 ^ 63) % 2 ^ 64 - 2 ^ 63

/-- Go `float64(t)` for an `int64` value `t`, as the exact integer value of the
resulting double: integers below `2 ^ 53` in magnitude are exact, larger ones are
rounded to 53 significant bits, ties to even. -/
def float64OfInt64 (t : Int) : Int :=
  let n := t.natAbs
  if n < 2 ^ 53 then t
  else
    let e := Nat.log2 n - 52
    let q := n / 2 ^ e
    let r := n % 2 ^ e
    let half := 2 ^ (e - 1)
    let q := if half < r ∨ (r = half ∧ q % 2 = 1) then q + 1 else q
    t.sign * ((q * 2 ^ e : Nat) : Int)

/-- Go `math.Mod(x, y)` on integer-valued doubles: the remainder of the truncated
division, which carries the sign of `x` and is computed without rounding. -/
def mathMod (x y : Int) : Int := Int.tmod x y

/-- The timestamp normalisation of `HandleScoll`, for the record timestamp `t`
(an `int64`). -/
def HandleScoll.timestamp (t : Int) : Time :=
  if t ≥ 10000000000 then
    Time.Unix
      (Int.land t (10000000000 - 1))
      (wrapInt64 (mathMod (float64OfInt64 t) 10000000000 * Millisecond))
  else
    Time.Unix t 0

/-- The label-name sanitisation loop of `HandleScoll`: `for k := range m.Tags`, for a
sequence `visits` of the keys the `range` produces; a key is only produced while it
has an entry. -/
def HandleScoll.sanitizeTags (visits : List String) (tags : GoMap String) : GoMap String :=
  visits.foldl
    (fun tags k =>
      if tags.contains k then
        let k2 := ClearName k false (runeOf 'x')
        if k2 ≠ "" ∧ k2 ≠ k then (tags.set k2 (tags.getD k)).delete k else tags
      else tags)
    tags

/-- The `host` to `instance` step of `HandleScoll`. -/
def HandleScoll.hostToInstance (tags : GoMap String) : GoMap String :=
  if tags.getD "host" ≠ "" then (tags.set "instance" (tags.getD "host")).delete "host"
  else tags

/-- The label-renaming loop of `HandleScoll` over `c.ReplacingsTags`, for a sequence
`visits` of the keys the `range` over the tags produces. -/
def HandleScoll.replaceTags (replacings : GoMap String) (visits : List String)
    (tags : GoMap String) : GoMap String :=
  visits.foldl
    (fun tags k =>
      if tags.contains k then
        match replacings.get? k with
        | some replace => (tags.set replace (tags.getD k)).delete k
        | none => tags
      else tags)
    tags

/-- The iteration orders of the two `range` loops over `m.Tags` in `HandleScoll`: for
the map a loop starts from, the sequence of keys it produces. -/
structure RangeOrder where
  sanitize : GoMap String → List String
  replace : GoMap String → List String

/-- What Go guarantees of a `range` over a map whose body deletes no key but the
current one: every key present at the start is produced. Entries created during the
loop may or may not be produced. -/
def RangeOrder.Valid (ord : RangeOrder) : Prop :=
  ∀ tags : GoMap String, ∀ k ∈ tags.keys, k ∈ ord.sanitize tags ∧ k ∈ ord.replace tags

/-- The order that produces exactly the keys present at the start, in list order. -/
def RangeOrder.inOrder : RangeOrder := ⟨GoMap.keys, GoMap.keys⟩

/-- The part of the loop body of `HandleScoll` after the type switch, for a record
`m` with sanitized name `name` and numeric value `v`: the sample sent on `c.ch`. -/
def HandleScoll.sample (ord : RangeOrder) (c : ScollectorCollector) (m : DataPoint)
    (name : String) (v : Float) : scollectorSample :=
  let typ := if c.types.getD name = "counter" then ValueType.CounterValue
    else ValueType.GaugeValue
  let ts := HandleScoll.timestamp m.Timestamp
  let tags := HandleScoll.sanitizeTags (ord.sanitize m.Tags) m.Tags
  let tags := HandleScoll.hostToInstance tags
  let tags := HandleScoll.replaceTags c.ReplacingsTags (ord.replace tags) tags
  { Name := name
    Labels := tags
    Typ := typ
    Help := "Scollector metric " ++ m.Metric ++ " (" ++ c.types.getD name ++ ")"
    Value := v
    Timestamp := ts }

/-- The body of the loop `for _, m := range batch` of `HandleScoll`: the collector
after the record (its type registry may have changed) and the sample sent on `c.ch`,
if any. -/
def HandleScoll.record (ord : RangeOrder) (c : ScollectorCollector) (m : DataPoint) :
    ScollectorCollector × Option scollectorSample :=
  let name := ClearName m.Metric true (runeOf 'x')
  if name = "" then (c, none)
  else
    match m.Value with
    | .float64 x => (c, some (HandleScoll.sample ord c m name x))
    | .int x => (c, some (HandleScoll.sample ord c m name (Float.ofInt x)))
    | .int64 x => (c, some (HandleScoll.sample ord c m name (Float.ofInt x)))
    | .int32 x => (c, some (HandleScoll.sample ord c m name (Float.ofInt x)))
    | .string x =>
      if x ≠ "" then
        match c.types.get? name with
        | some z => if z ≠ x then ({ c with types := c.types.set name x }, none) else (c, none)
        | none => ({ c with types := c.types.set name x }, none)
      else (c, none)
    | .other => (c, none)

/-- The loop `for _, m := range batch` of `HandleScoll`: the collector after the batch
and the samples sent on `c.ch`, in order. -/
def HandleScoll.batch (ord : RangeOrder) (c : ScollectorCollector) (batch : List DataPoint) :
    ScollectorCollector × List scollectorSample :=
  batch.foldl
    (fun st m =>
      let res := HandleScoll.record ord st.1 m
      match res.2 with
      | some sample => (res.1, st.2 ++ [sample])
      | none => (res.1, st.2))
    (c, [])

/-- An HTTP request as `HandleScoll` sees it: method, the two headers it reads, the
error of `gzip.NewReader` on the body (if any), and the outcome of decoding the body
as a JSON batch. -/
structure Request where
  Method : String
  ContentType : String
  ContentEncoding : String
  gzipError : Option String
  decoded : Except String (List DataPoint)

/-- The HTTP response: status code and body. -/
structure Response where
  code : Nat
  body : String
  deriving DecidableEq

/-- Go `ScollectorCollector.HandleScoll`: the collector afterwards, the samples sent
on `c.ch` in order, and the response.  The value written to the gauge `lastProcessed`
is not modelled. -/
def ScollectorCollector.HandleScoll (ord : RangeOrder) (c : ScollectorCollector)
    (r : Request) : ScollectorCollector × List scollectorSample × Response :=
  if r.Method ≠ "POST" then
    (c, [], ⟨405, "Only POST is allowed\n"⟩)
  else if r.ContentType ≠ "application/json" then
    (c, [], ⟨400, "Only application/json is allowed\n"⟩)
  else
    match (if r.ContentEncoding = "gzip" then r.gzipError else none) with
    | some err => (c, [], ⟨400, "Not gzipped: " ++ err ++ "\n"⟩)
    | none =>
      match r.decoded with
      | .error err => (c, [], ⟨400, "cannot decode JSON: " ++ err ++ "\n"⟩)
      | .ok batch =>
        let res := HandleScoll.batch ord c batch
        (res.1, res.2, ⟨204, ""⟩)

/-- A request that passes the transport checks of `HandleScoll` and decodes to
`batch`. -/
def Request.ofBatch (batch : List DataPoint) : Request :=
  { Method := "POST", ContentType := "application/json", ContentEncoding := "",
    gzipError := none, decoded := .ok batch }

/-! ## Notions of the specification, used to state the properties of the handler -/

/-- The numeric value of a record value, if it is numeric (one of the four numeric
dynamic types), as the `float64` the sample carries. -/
def Value.numeric? : Value → Option Float
  | .float64 x => some x
  | .int x => some (Float.ofInt x)
  | .int64 x => some (Float.ofInt x)
  | .int32 x => some (Float.ofInt x)
  | .string _ => none
  | .other => none

/-- The sanitized metric name of a record. -/
def DataPoint.name (m : DataPoint) : String := ClearName m.Metric true (runeOf 'x')

/-- A record that the specification says is submitted: its sanitized metric name is
non-empty and its value is numeric. -/
def DataPoint.accepted (m : DataPoint) : Bool :=
  decide (m.name ≠ "") && m.Value.numeric?.isSome

/-- The type hint a record carries for the name `n`: the value of a string-valued
record with a non-empty value whose metric name sanitizes to `n`. -/
def DataPoint.hintFor (n : String) (m : DataPoint) : Option String :=
  match m.Value with
  | .string x => if x ≠ "" ∧ m.name = n then some x else none
  | _ => none

/-- The most recent type hint for the name `n` in a sequence of records (oldest
first), if any record carries one. -/
def lastHint (n : String) : List DataPoint → Option String
  | [] => none
  | m :: rest =>
    match lastHint n rest with
    | some x => some x
    | none => m.hintFor n

/-- The hint that governs the name `n` after the records `earlier` were processed by a
collector whose type registry was `types` before them: the most recent hint among the
records, else what the registry held. -/
def governingHint (types : GoMap String) (earlier : List DataPoint) (n : String) :
    Option String :=
  match lastHint n earlier with
  | some x => some x
  | none => types.get? n

/-- A submitted sample is the one for a record: it carries the sanitized name, the
numeric value and the normalised timestamp of the record. -/
def SubmittedFor (s : scollectorSample) (m : DataPoint) : Prop :=
  s.Name = m.name ∧ some s.Value = m.Value.numeric? ∧
    s.Timestamp = HandleScoll.timestamp m.Timestamp

/-- A sample whose name and labels are free of the delimiters of the identity string:
no `#` in the name, no `=` and no `;` in a label name, no `;` in a label value. -/
def scollectorSample.DelimiterFree (s : scollectorSample) : Prop :=
  '#' ∉ s.Name.data ∧
    ∀ e ∈ s.Labels.entries, '=' ∉ e.1.data ∧ ';' ∉ e.1.data ∧ ';' ∉ e.2.data

instance scollectorSample.decidableDelimiterFree (s : scollectorSample) :
    Decidable s.DelimiterFree := by
  unfold scollectorSample.DelimiterFree
  infer_instance

/-- The constant metric of a sample: what `Collect` sends for it when the descriptor
is accepted. -/
def scollectorSample.constMetric (s : scollectorSample) : Metric :=
  Metric.constMetric s.Name s.Help s.Labels s.Typ s.Value

/-- A sample is live at `now` under the horizon `horizon`: its timestamp is not before
`now - horizon`. -/
def scollectorSample.liveAt (s : scollectorSample) (now : Time) (horizon : Duration) :
    Bool :=
  decide (now.unixNano - horizon ≤ s.Timestamp.unixNano)

/-! ## Concrete inputs used by the witnesses and counterexamples -/

/-- A tag set from a list of pairs, later pairs first. -/
def tagsOf (l : List (String × String)) : GoMap String :=
  l.foldr (fun e m => m.set e.1 e.2) GoMap.empty

/-- A sample of series `cpu{host=a}` with value 1 at 100 s. -/
def sampleA : scollectorSample :=
  { Name := "cpu", Labels := tagsOf [("host", "a")], Help := "", Value := 1,
    Typ := .GaugeValue, Timestamp := Time.Unix 100 0 }

/-- A sample of the same series with another value and an earlier timestamp. -/
def sampleB : scollectorSample :=
  { Name := "cpu", Labels := tagsOf [("host", "a")], Help := "", Value := 7,
    Typ := .GaugeValue, Timestamp := Time.Unix 90 0 }

/-- A collector with a horizon of 10 s holding `sampleA`. -/
def collectorA : ScollectorCollector := (NewScollectorCollector 10000000000).store sampleA

/-- The record `{metric: "x", value: "counter"}`. -/
def hintRecord : DataPoint :=
  { Metric := "x", Timestamp := 1446570000, Value := .string "counter", Tags := GoMap.empty }

/-- The record `{metric: "x", value: 5}`. -/
def numericRecord : DataPoint :=
  { Metric := "x", Timestamp := 1446570000, Value := .float64 5, Tags := GoMap.empty }

/-- A record whose value is neither numeric nor a string, for instance a bool. -/
def boolRecord : DataPoint :=
  { Metric := "y", Timestamp := 1446570000, Value := .other, Tags := GoMap.empty }

/-- A numeric record whose metric name is empty. -/
def namelessRecord : DataPoint :=
  { Metric := "", Timestamp := 1446570000, Value := .float64 5, Tags := GoMap.empty }

/-- A type hint whose metric name is empty. -/
def namelessHint : DataPoint :=
  { Metric := "", Timestamp := 1446570000, Value := .string "counter", Tags := GoMap.empty }

/-- A numeric record tagged `host=foo`. -/
def hostRecord : DataPoint :=
  { Metric := "cpu.idle", Timestamp := 1446570000, Value := .float64 5,
    Tags := tagsOf [("host", "foo")] }

/-- A numeric record tagged with an empty `host`. -/
def emptyHostRecord : DataPoint :=
  { Metric := "cpu.idle", Timestamp := 1446570000, Value := .float64 5,
    Tags := tagsOf [("host", "")] }

/-- A numeric record tagged `a=v`. -/
def taggedRecord : DataPoint :=
  { Metric := "cpu.idle", Timestamp := 1446570000, Value := .float64 5,
    Tags := tagsOf [("a", "v")] }

/-- A collector configured with the single rename rule `old:new`. -/
def collectorWithRule (old new : String) : ScollectorCollector :=
  { NewScollectorCollector 10000000000 with ReplacingsTags := tagsOf [(old, new)] }

/-- A sample of metric `m` with the single label `a` of value `1;b=2`. -/
def collidingA : scollectorSample :=
  { Name := "m", Labels := tagsOf [("a", "1;b=2")], Help := "", Value := 1,
    Typ := .GaugeValue, Timestamp := Time.Unix 100 0 }

/-- A sample of metric `m` with the two labels `a=1` and `b=2`. -/
def collidingB : scollectorSample :=
  { Name := "m", Labels := tagsOf [("a", "1"), ("b", "2")], Help := "", Value := 1,
    Typ := .GaugeValue, Timestamp := Time.Unix 100 0 }

/-- The sample `collidingB` with its labels enumerated in the other order. -/
def collidingB2 : scollectorSample :=
  { Name := "m", Labels := tagsOf [("b", "2"), ("a", "1")], Help := "", Value := 1,
    Typ := .GaugeValue, Timestamp := Time.Unix 100 0 }

/-- A numeric record with a tag whose name is empty. -/
def emptyTagRecord : DataPoint :=
  { Metric := "cpu.idle", Timestamp := 100, Value := .float64 5,
    Tags := tagsOf [("", "v")] }

/-- The sample `HandleScoll` submits for `emptyTagRecord`. -/
def emptyTagSample : scollectorSample :=
  HandleScoll.sample RangeOrder.inOrder (NewScollectorCollector 10000000000) emptyTagRecord
    emptyTagRecord.name 5

/-- A sample of series `mem{host=a}` at 100 s. -/
def sampleG : scollectorSample :=
  { Name := "mem", Labels := tagsOf [("host", "a")], Help := "mem", Value := 2,
    Typ := .GaugeValue, Timestamp := Time.Unix 100 0 }

/-! ## Lemmas on Go maps -/

namespace GoMap

variable {α : Type}

theorem ext_entries {m₁ m₂ : GoMap α} (h : m₁.entries = m₂.entries) : m₁ = m₂ := by
  cases m₁; cases m₂; cases h; rfl

theorem filter_ne_cons_eq (e : String × α) (l : List (String × α)) (k : String)
    (h : e.1 = k) :
    (e :: l).filter (fun e => decide (e.1 ≠ k)) = l.filter (fun e => decide (e.1 ≠ k)) :=
  List.filter_cons_of_neg (by simpa using h)

theorem filter_ne_cons_ne (e : String × α) (l : List (String × α)) (k : String)
    (h : ¬ e.1 = k) :
    (e :: l).filter (fun e => decide (e.1 ≠ k)) = e :: l.filter (fun e => decide (e.1 ≠ k)) :=
  List.filter_cons_of_pos (by simpa using h)

theorem find?_filter_ne (l : List (String × α)) (k k1 : String) (h : k1 ≠ k) :
    (l.filter (fun e => decide (e.1 ≠ k))).find? (fun e => decide (e.1 = k1))
      = l.find? (fun e => decide (e.1 = k1)) := by
  induction l with
  | nil => rfl
  | cons e l ih =>
    by_cases hk : e.1 = k
    · have hk1 : ¬ e.1 = k1 := fun h1 => h (h1.symm.trans hk)
      rw [filter_ne_cons_eq e l k hk, ih, List.find?_cons_of_neg _ (by simpa using hk1)]
    · rw [filter_ne_cons_ne e l k hk]
      by_cases hk1 : e.1 = k1
      · rw [List.find?_cons_of_pos _ (by simpa using hk1),
          List.find?_cons_of_pos _ (by simpa using hk1)]
      · rw [List.find?_cons_of_neg _ (by simpa using hk1),
          List.find?_cons_of_neg _ (by simpa using hk1), ih]

theorem find?_filter_self (l : List (String × α)) (k : String) :
    (l.filter (fun e => decide (e.1 ≠ k))).find? (fun e => decide (e.1 = k)) = none := by
  induction l with
  | nil => rfl
  | cons e l ih =>
    by_cases hk : e.1 = k
    · rw [filter_ne_cons_eq e l k hk, ih]
    · rw [filter_ne_cons_ne e l k hk, List.find?_cons_of_neg _ (by simpa using hk), ih]

theorem get?_set_self (m : GoMap α) (k : String) (v : α) : (m.set k v).get? k = some v := by
  simp [get?, set]

theorem get?_set_ne (m : GoMap α) (k : String) (v : α) (k1 : String) (h : k1 ≠ k) :
    (m.set k v).get? k1 = m.get? k1 := by
  have hk : ¬ k = k1 := fun e => h e.symm
  simp only [get?, set, List.find?_cons, hk, decide_False]
  rw [find?_filter_ne _ _ _ h]

theorem get?_delete_self (m : GoMap α) (k : String) : (m.delete k).get? k = none := by
  simp only [get?, delete]
  rw [find?_filter_self]; rfl

theorem get?_delete_ne (m : GoMap α) (k k1 : String) (h : k1 ≠ k) :
    (m.delete k).get? k1 = m.get? k1 := by
  simp only [get?, delete]
  rw [find?_filter_ne _ _ _ h]

theorem get?_empty (k : String) : (GoMap.empty : GoMap α).get? k = none := rfl

theorem mem_entries_of_get? {m : GoMap α} {k : String} {v : α} (h : m.get? k = some v) :
    (k, v) ∈ m.entries := by
  simp only [get?, Option.map_eq_some'] at h
  obtain ⟨e, he, hv⟩ := h
  have h1 := List.find?_some he
  have h2 := List.mem_of_find?_eq_some he
  simp only [decide_eq_true_eq] at h1
  rw [← h1, ← hv]
  exact h2

theorem find?_of_mem_nodup (l : List (String × α)) (hnd : (l.map Prod.fst).Nodup)
    (k : String) (v : α) (h : (k, v) ∈ l) :
    l.find? (fun e => decide (e.1 = k)) = some (k, v) := by
  induction l with
  | nil => cases h
  | cons e l ih =>
    rw [List.map_cons, List.nodup_cons] at hnd
    rcases List.mem_cons.1 h with h | h
    · subst h; simp
    · have hne : ¬ e.1 = k := by
        intro he
        apply hnd.1
        rw [he]
        exact List.mem_map.2 ⟨(k, v), h, rfl⟩
      simp only [List.find?_cons, hne, decide_False]
      exact ih hnd.2 h

theorem get?_of_mem_entries {m : GoMap α} {k : String} {v : α} (h : (k, v) ∈ m.entries) :
    m.get? k = some v := by
  simp only [get?, find?_of_mem_nodup m.entries m.nodupKeys k v h, Option.map_some']

theorem get?_eq_some_iff {m : GoMap α} {k : String} {v : α} :
    m.get? k = some v ↔ (k, v) ∈ m.entries :=
  ⟨mem_entries_of_get?, get?_of_mem_entries⟩

theorem mem_keys_iff {m : GoMap α} {k : String} : k ∈ m.keys ↔ ∃ v, m.get? k = some v := by
  simp only [keys, List.mem_map, get?_eq_some_iff]
  constructor
  · rintro ⟨e, he, rfl⟩
    exact ⟨e.2, he⟩
  · rintro ⟨v, hv⟩
    exact ⟨(k, v), hv, rfl⟩

theorem contains_iff {m : GoMap α} {k : String} : m.contains k = true ↔ k ∈ m.keys := by
  rw [mem_keys_iff, contains, Option.isSome_iff_exists]

theorem getD_of_get? {m : GoMap String} {k v : String} (h : m.get? k = some v) :
    m.getD k = v := by
  simp [getD, h]

end GoMap

namespace GoMap

variable {α : Type}

/-- Two maps that hold the same mapping have the same entries, up to the iteration
order. -/
theorem perm_of_sameMapping {m₁ m₂ : GoMap α} (h : SameMapping m₁ m₂) :
    m₁.entries.Perm m₂.entries := by
  rw [List.perm_ext_iff_of_nodup (List.Nodup.of_map _ m₁.nodupKeys)
    (List.Nodup.of_map _ m₂.nodupKeys)]
  rintro ⟨k, v⟩
  rw [← get?_eq_some_iff, ← get?_eq_some_iff, h k]

theorem sameMapping_of_perm {m₁ m₂ : GoMap α} (h : m₁.entries.Perm m₂.entries) :
    SameMapping m₁ m₂ := by
  intro k
  cases h1 : m₁.get? k with
  | none =>
    cases h2 : m₂.get? k with
    | none => rfl
    | some v =>
      have := get?_of_mem_entries (h.mem_iff.2 (mem_entries_of_get? h2))
      rw [h1] at this; cases this
  | some v =>
    exact (get?_of_mem_entries (h.mem_iff.1 (mem_entries_of_get? h1))).symm

end GoMap

/-! ## `ClearName` -/

theorem runeOf_nonneg (c : Char) : 0 ≤ runeOf c := by
  unfold runeOf; exact Int.ofNat_nonneg _

theorem writeRune_runeOf (c : Char) : writeRune (runeOf c) = c := by
  unfold writeRune runeOf
  have hv : c.toNat.isValidChar := c.valid
  have h1 : ((c.toNat : Int)).toNat = c.toNat := Int.toNat_natCast _
  rw [h1]
  unfold Nat.isValidChar at hv
  rw [if_pos hv]
  exact Char.ofNat_toNat c

theorem isAlpha_iff (c : Char) :
    c.isAlpha = true ↔ (('a' ≤ c ∧ c ≤ 'z') ∨ ('A' ≤ c ∧ c ≤ 'Z')) := by
  simp only [Char.isAlpha, Char.isUpper, Char.isLower, Bool.or_eq_true, Bool.and_eq_true,
    decide_eq_true_eq, Char.le_def, ge_iff_le]
  constructor
  · rintro (h | h)
    · right; exact h
    · left; exact h
  · rintro (h | h)
    · right; exact h
    · left; exact h

theorem isDigit_iff (c : Char) : c.isDigit = true ↔ ('0' ≤ c ∧ c ≤ '9') := by
  simp only [Char.isDigit, Bool.and_eq_true, decide_eq_true_eq, Char.le_def, ge_iff_le]
  exact Iff.rfl

/-- One call of the closure of `ClearName`, with a character as placeholder, makes
the character the specification prescribes and advances the counter. -/
theorem mapping_eq (a : Bool) (p : Char) (n : Nat) (c : Char) :
    ClearName.mapping a (runeOf p) ((n : Int) - 1) c
      = ((n : Int), runeOf (sanitizedChar a p n c)) := by
  unfold ClearName.mapping sanitizedChar
  simp only [sub_add_cancel, Nat.cast_pos]
  by_cases h1 : c = '.'
  · simp [h1]
  · simp only [h1, if_false]
    by_cases h2 : ('a' ≤ c ∧ c ≤ 'z') ∨ ('A' ≤ c ∧ c ≤ 'Z') ∨ c = '_'
    · have h2' : c.isAlpha = true ∨ c = '_' := by
        rw [isAlpha_iff]; tauto
      rw [if_pos h2, if_pos (by tauto)]
    · have h2' : ¬ c.isAlpha = true := by rw [isAlpha_iff]; tauto
      have h2'' : ¬ c = '_' := by tauto
      rw [if_neg h2]
      by_cases h3 : a = true ∧ c = ':'
      · rw [if_pos h3, if_pos (by tauto)]
      · rw [if_neg h3]
        by_cases h4 : 0 < n ∧ '0' ≤ c ∧ c ≤ '9'
        · have : c.isDigit = true := by rw [isDigit_iff]; tauto
          rw [if_pos h4, if_pos (by tauto)]
        · have : ¬ (c.isDigit = true ∧ 0 < n) := by rw [isDigit_iff]; tauto
          rw [if_neg h4, if_neg (by tauto)]

theorem stringsMap_cons (a : Bool) (p : Char) (c : Char) (cs : List Char) (n : Nat) :
    stringsMap (ClearName.mapping a (runeOf p)) ((n : Int) - 1) (c :: cs)
      = sanitizedChar a p n c ::
          stringsMap (ClearName.mapping a (runeOf p)) (((n + 1 : Nat) : Int) - 1) cs := by
  rw [stringsMap, mapping_eq]
  simp only [runeOf_nonneg, if_true, writeRune_runeOf]
  congr 2
  push_cast
  ring

theorem stringsMap_length (a : Bool) (p : Char) (cs : List Char) (n : Nat) :
    (stringsMap (ClearName.mapping a (runeOf p)) ((n : Int) - 1) cs).length = cs.length := by
  induction cs generalizing n with
  | nil => simp [stringsMap]
  | cons c cs ih => rw [stringsMap_cons, List.length_cons, ih, List.length_cons]

theorem stringsMap_getElem? (a : Bool) (p : Char) (cs : List Char) (n i : Nat) :
    (stringsMap (ClearName.mapping a (runeOf p)) ((n : Int) - 1) cs)[i]?
      = (cs[i]?).map (sanitizedChar a p (n + i)) := by
  induction cs generalizing n i with
  | nil => simp [stringsMap]
  | cons c cs ih =>
    rw [stringsMap_cons]
    cases i with
    | zero => simp
    | succ j =>
      simp only [List.getElem?_cons_succ]
      rw [ih]
      have e : n + 1 + j = n + (j + 1) := by omega
      rw [e]

theorem runeOf_ne_zero (p : Char) (hp : p ≠ Char.ofNat 0) : runeOf p ≠ 0 := by
  intro h
  apply hp
  unfold runeOf at h
  have h' : p.toNat = 0 := by exact_mod_cast h
  rw [← Char.ofNat_toNat p, h']

theorem ClearName_data (txt : String) (a : Bool) (p : Char) (hp : p ≠ Char.ofNat 0) :
    (ClearName txt a (runeOf p)).data
      = stringsMap (ClearName.mapping a (runeOf p)) (((0 : Nat) : Int) - 1) txt.data := by
  unfold ClearName
  simp [runeOf_ne_zero p hp]

theorem ClearName_colon (a : Bool) (p : Char) (hp : p ≠ Char.ofNat 0) :
    ClearName "a:b" a (runeOf p) = String.mk ['a', if a = true then ':' else p, 'b'] := by
  apply String.ext
  rw [ClearName_data _ _ _ hp]
  show stringsMap _ _ ['a', ':', 'b'] = _
  rw [stringsMap_cons, stringsMap_cons, stringsMap_cons]
  have h1 : sanitizedChar a p 0 'a' = 'a' := by
    unfold sanitizedChar; rw [if_neg (by decide), if_pos (Or.inl (by decide))]
  have h3 : sanitizedChar a p (0 + 1 + 1) 'b' = 'b' := by
    unfold sanitizedChar; rw [if_neg (by decide), if_pos (Or.inl (by decide))]
  have h2 : sanitizedChar a p (0 + 1) ':' = if a = true then ':' else p := by
    unfold sanitizedChar
    rw [if_neg (by decide)]
    cases a
    · rw [if_neg (by decide)]; rfl
    · rw [if_pos (by decide)]; rfl
  rw [h1, h2, h3]
  rfl

/-- C4 (amended). For every input string, every flag `allowColon` and every placeholder
that is a character other than NUL, `ClearName` keeps the number of characters, and its
character at position `i` is the one the specification prescribes: `_` for a dot, the
input character for an ASCII letter, `_`, a colon when `allowColon` holds, or a digit at
a position `i > 0`, and the placeholder otherwise.  In particular
`ClearName("my.metric", true, x)` is `my_metric`, `ClearName("9bad", false, x)` is
`xbad`, and a colon is kept when `allowColon` is true and replaced when it is false. -/
theorem ClearName_spec (txt : String) (allowColon : Bool) (p : Char)
    (hp : p ≠ Char.ofNat 0) :
    (ClearName txt allowColon (runeOf p)).length = txt.length ∧
    (∀ i : Nat, (ClearName txt allowColon (runeOf p)).data[i]?
        = (txt.data[i]?).map (sanitizedChar allowColon p i)) ∧
    ClearName "my.metric" true (runeOf 'x') = "my_metric" ∧
    ClearName "9bad" false (runeOf 'x') = "xbad" ∧
    ClearName "a:b" true (runeOf p) = String.mk ['a', ':', 'b'] ∧
    ClearName "a:b" false (runeOf p) = String.mk ['a', p, 'b'] := by
  refine ⟨?_, ?_, by decide, by decide, ClearName_colon true p hp, ClearName_colon false p hp⟩
  · show (ClearName txt allowColon (runeOf p)).data.length = txt.data.length
    rw [ClearName_data txt allowColon p hp, stringsMap_length]
  · intro i
    rw [ClearName_data txt allowColon p hp, stringsMap_getElem?, Nat.zero_add]

/-- C4, witness: the amended statement at `"9bad"`, colons not allowed, placeholder `x`. -/
theorem ClearName_spec_witness :
    (ClearName "9bad" false (runeOf 'x')).length = "9bad".length ∧
    (∀ i : Nat, (ClearName "9bad" false (runeOf 'x')).data[i]?
        = ("9bad".data[i]?).map (sanitizedChar false 'x' i)) ∧
    ClearName "my.metric" true (runeOf 'x') = "my_metric" ∧
    ClearName "9bad" false (runeOf 'x') = "xbad" ∧
    ClearName "a:b" true (runeOf 'x') = String.mk ['a', ':', 'b'] ∧
    ClearName "a:b" false (runeOf 'x') = String.mk ['a', 'x', 'b'] :=
  ClearName_spec "9bad" false 'x' (by decide)

/-- C4, counterexample: the non-zero placeholder `-1` is the value `strings.Map` reads
as "drop the character", so `ClearName("9bad", false, -1)` is `bad`: one character
shorter than the input, and its first character is not the placeholder. -/
theorem ClearName_negative_placeholder_drops :
    (-1 : Rune) ≠ 0 ∧ ClearName "9bad" false (-1) = "bad" ∧
    (ClearName "9bad" false (-1)).length ≠ "9bad".length := by
  decide

/-! ## The sample store: upsert, sweep, export -/

theorem foldl_snoc_map {α β : Type} (f : α → β) (l : List α) (init : List β) :
    l.foldl (fun acc e => acc ++ [f e]) init = init ++ l.map f := by
  induction l generalizing init with
  | nil => simp
  | cons e l ih => simp [ih]

/-- The age test of `Collect` and of the sweep, in terms of the claim: the age limit
is after a timestamp exactly when the timestamp is before `now - horizon`. -/
theorem After_ageLimit (now : Time) (horizon : Duration) (ts : Time) :
    (now.Add (-horizon)).After ts = true ↔ ts.unixNano < now.unixNano - horizon := by
  simp only [Time.After, Time.Add, decide_eq_true_eq]
  constructor <;> intro h <;> omega

/-- The age limit is after the timestamp of a sample exactly when the sample is not
live. -/
theorem After_eq_not_liveAt (now : Time) (horizon : Duration) (s : scollectorSample) :
    (now.Add (-horizon)).After s.Timestamp = !(s.liveAt now horizon) := by
  by_cases h : s.Timestamp.unixNano < now.unixNano - horizon
  · rw [(After_ageLimit _ _ _).2 h]
    have : s.liveAt now horizon = false := decide_eq_false (by omega)
    rw [this]; rfl
  · have h1 : (now.Add (-horizon)).After s.Timestamp = false := by
      cases hh : (now.Add (-horizon)).After s.Timestamp with
      | false => rfl
      | true => exact absurd ((After_ageLimit _ _ _).1 hh) h
    have : s.liveAt now horizon = true := decide_eq_true (by omega)
    rw [h1, this]; rfl

theorem loop_cons_skip (descOk : DescCheck) (ageLimit : Time) (s : scollectorSample)
    (rest : List scollectorSample) (ch : List Metric)
    (h : ageLimit.After s.Timestamp = true) :
    Collect.loop descOk ageLimit (s :: rest) ch = Collect.loop descOk ageLimit rest ch := by
  rw [Collect.loop, if_pos h]

theorem loop_cons_send (descOk : DescCheck) (ageLimit : Time) (s : scollectorSample)
    (rest : List scollectorSample) (ch : List Metric)
    (h : ageLimit.After s.Timestamp = false) (hok : descOk s.Name s.Help s.Labels = true) :
    Collect.loop descOk ageLimit (s :: rest) ch
      = Collect.loop descOk ageLimit rest (ch ++ [s.constMetric]) := by
  rw [Collect.loop, if_neg (by rw [h]; exact Bool.false_ne_true), MustNewConstMetric,
    if_pos hok]
  rfl

theorem loop_cons_panic (descOk : DescCheck) (ageLimit : Time) (s : scollectorSample)
    (rest : List scollectorSample) (ch : List Metric)
    (h : ageLimit.After s.Timestamp = false) (hok : descOk s.Name s.Help s.Labels = false) :
    Collect.loop descOk ageLimit (s :: rest) ch = { sent := ch, panicked := true } := by
  rw [Collect.loop, if_neg (by rw [h]; exact Bool.false_ne_true), MustNewConstMetric,
    if_neg (by rw [hok]; exact Bool.false_ne_true)]

/-- The three ways one round of the export loop can go. -/
theorem loop_cons_cases (descOk : DescCheck) (ageLimit : Time) (s : scollectorSample) :
    ageLimit.After s.Timestamp = true ∨
    (ageLimit.After s.Timestamp = false ∧ descOk s.Name s.Help s.Labels = true) ∨
    (ageLimit.After s.Timestamp = false ∧ descOk s.Name s.Help s.Labels = false) := by
  cases ageLimit.After s.Timestamp <;> cases descOk s.Name s.Help s.Labels <;> simp

/-- What was sent before the loop stays sent, in front. -/
theorem loop_sent_extends (descOk : DescCheck) (ageLimit : Time)
    (samples : List scollectorSample) (ch : List Metric) :
    ∃ rest, (Collect.loop descOk ageLimit samples ch).sent = ch ++ rest := by
  induction samples generalizing ch with
  | nil => exact ⟨[], by simp [Collect.loop]⟩
  | cons s l ih =>
    rcases loop_cons_cases descOk ageLimit s with h | ⟨h, hok⟩ | ⟨h, hok⟩
    · rw [loop_cons_skip _ _ _ _ _ h]; exact ih ch
    · rw [loop_cons_send _ _ _ _ _ h hok]
      obtain ⟨rest, hrest⟩ := ih (ch ++ [s.constMetric])
      exact ⟨s.constMetric :: rest, by rw [hrest]; simp⟩
    · rw [loop_cons_panic _ _ _ _ _ h hok]; exact ⟨[], by simp⟩

/-- The export loop panics exactly when some sample that is not skipped has a
descriptor that is rejected. -/
theorem loop_panicked_iff (descOk : DescCheck) (ageLimit : Time)
    (samples : List scollectorSample) (ch : List Metric) :
    (Collect.loop descOk ageLimit samples ch).panicked = true ↔
      ∃ s ∈ samples, ageLimit.After s.Timestamp = false ∧
        descOk s.Name s.Help s.Labels = false := by
  induction samples generalizing ch with
  | nil => simp [Collect.loop]
  | cons s l ih =>
    rcases loop_cons_cases descOk ageLimit s with h | ⟨h, hok⟩ | ⟨h, hok⟩
    · rw [loop_cons_skip _ _ _ _ _ h, ih]
      constructor
      · rintro ⟨x, hx, hx2⟩; exact ⟨x, List.mem_cons_of_mem _ hx, hx2⟩
      · rintro ⟨x, hx, hx2⟩
        rcases List.mem_cons.1 hx with rfl | hx
        · rw [h] at hx2; cases hx2.1
        · exact ⟨x, hx, hx2⟩
    · rw [loop_cons_send _ _ _ _ _ h hok, ih]
      constructor
      · rintro ⟨x, hx, hx2⟩; exact ⟨x, List.mem_cons_of_mem _ hx, hx2⟩
      · rintro ⟨x, hx, hx2⟩
        rcases List.mem_cons.1 hx with rfl | hx
        · rw [hok] at hx2; cases hx2.2
        · exact ⟨x, hx, hx2⟩
    · rw [loop_cons_panic _ _ _ _ _ h hok]
      simp only [true_iff]
      exact ⟨s, List.mem_cons_self _ _, h, hok⟩

/-- When every sample that is not skipped has an accepted descriptor, the export loop
does not panic and sends, sample by sample, no metric for a skipped sample and its
constant metric for any other. -/
theorem loop_valid (descOk : DescCheck) (ageLimit : Time)
    (samples : List scollectorSample) (ch : List Metric)
    (hvalid : ∀ s ∈ samples, ageLimit.After s.Timestamp = false →
      descOk s.Name s.Help s.Labels = true) :
    Collect.loop descOk ageLimit samples ch
      = { sent := ch ++ samples.flatMap (fun s =>
            if ageLimit.After s.Timestamp = true then [] else [s.constMetric]),
          panicked := false } := by
  induction samples generalizing ch with
  | nil => simp [Collect.loop]
  | cons s l ih =>
    have ih' := fun ch => ih ch (fun x hx => hvalid x (List.mem_cons_of_mem _ hx))
    cases h : ageLimit.After s.Timestamp with
    | true =>
      rw [loop_cons_skip _ _ _ _ _ h, ih', List.flatMap_cons, h]
      simp
    | false =>
      rw [loop_cons_send _ _ _ _ _ h (hvalid s (List.mem_cons_self _ _) h), ih',
        List.flatMap_cons, h]
      simp

theorem Collect_eq_loop (descOk : DescCheck) (c : ScollectorCollector) (now : Time) :
    c.Collect descOk now
      = Collect.loop descOk (now.Add (-c.expiryTimes)) (c.samples.entries.map Prod.snd)
          [Metric.lastProcessed] := by
  unfold ScollectorCollector.Collect
  simp only []
  rw [foldl_snoc_map, List.nil_append]

/-- The export when every live sample has an accepted descriptor: no panic, and after
the liveness gauge, entry by entry, one metric for a live sample and none for an
expired one. -/
theorem Collect_valid (descOk : DescCheck) (c : ScollectorCollector) (now : Time)
    (hvalid : ∀ e ∈ c.samples.entries, e.2.liveAt now c.expiryTimes = true →
      descOk e.2.Name e.2.Help e.2.Labels = true) :
    c.Collect descOk now
      = { sent := Metric.lastProcessed :: c.samples.entries.flatMap (fun e =>
            if e.2.liveAt now c.expiryTimes = true then [e.2.constMetric] else []),
          panicked := false } := by
  rw [Collect_eq_loop, loop_valid]
  · simp only [List.singleton_append, List.flatMap_map, CollectResult.mk.injEq, and_true,
      List.cons.injEq, true_and]
    apply List.flatMap_congr
    intro e _
    rw [After_eq_not_liveAt]
    cases e.2.liveAt now c.expiryTimes <;> simp
  · intro s hs hlive
    obtain ⟨e, he, rfl⟩ := List.mem_map.1 hs
    apply hvalid e he
    rw [After_eq_not_liveAt] at hlive
    simpa using hlive

/-- C1 (amended). For every store state, scrape time and expiry horizon, `Collect`
sends the liveness gauge first, and it panics exactly when some stored sample whose
timestamp is not before `now - horizon` has a descriptor that `prometheus.NewDesc`
rejects.  When every such sample has an accepted descriptor, `Collect` does not panic
and emits the gauge and then, entry by entry, exactly one metric for each stored sample
whose timestamp is not before `now - horizon` and none for a sample whose timestamp is
before it; so the number of metrics is one more than the number of such samples, and
every stored sample with timestamp at or after `now - horizon` (the boundary included)
is emitted. -/
theorem Collect_emits_live_samples (descOk : DescCheck) (c : ScollectorCollector)
    (now : Time) :
    (∃ rest, (c.Collect descOk now).sent = Metric.lastProcessed :: rest) ∧
    ((c.Collect descOk now).panicked = true ↔
      ∃ e ∈ c.samples.entries, e.2.liveAt now c.expiryTimes = true ∧
        descOk e.2.Name e.2.Help e.2.Labels = false) ∧
    ((∀ e ∈ c.samples.entries, e.2.liveAt now c.expiryTimes = true →
        descOk e.2.Name e.2.Help e.2.Labels = true) →
      (c.Collect descOk now).panicked = false ∧
      (c.Collect descOk now).sent = Metric.lastProcessed ::
        c.samples.entries.flatMap (fun e =>
          if e.2.liveAt now c.expiryTimes = true then [e.2.constMetric] else []) ∧
      (c.Collect descOk now).sent.length = 1 + c.samples.entries.countP
        (fun e => e.2.liveAt now c.expiryTimes) ∧
      (∀ k s, c.samples.get? k = some s →
        now.unixNano - c.expiryTimes ≤ s.Timestamp.unixNano →
        s.constMetric ∈ (c.Collect descOk now).sent.tail) ∧
      (∀ k s, c.samples.get? k = some s →
        s.Timestamp.unixNano = now.unixNano - c.expiryTimes →
        s.constMetric ∈ (c.Collect descOk now).sent.tail)) := by
  refine ⟨?_, ?_, ?_⟩
  · rw [Collect_eq_loop]
    obtain ⟨rest, h⟩ := loop_sent_extends descOk (now.Add (-c.expiryTimes))
      (c.samples.entries.map Prod.snd) [Metric.lastProcessed]
    exact ⟨rest, by rw [h]; rfl⟩
  · rw [Collect_eq_loop, loop_panicked_iff]
    constructor
    · rintro ⟨s, hs, hlive, hbad⟩
      obtain ⟨e, he, rfl⟩ := List.mem_map.1 hs
      rw [After_eq_not_liveAt] at hlive
      exact ⟨e, he, by simpa using hlive, hbad⟩
    · rintro ⟨e, he, hlive, hbad⟩
      refine ⟨e.2, List.mem_map_of_mem _ he, ?_, hbad⟩
      rw [After_eq_not_liveAt, hlive]; rfl
  · intro hvalid
    rw [Collect_valid descOk c now hvalid]
    have live : ∀ k s, c.samples.get? k = some s →
        now.unixNano - c.expiryTimes ≤ s.Timestamp.unixNano →
        s.constMetric ∈ c.samples.entries.flatMap (fun e =>
          if e.2.liveAt now c.expiryTimes = true then [e.2.constMetric] else []) := by
      intro k s hs hlive
      rw [List.mem_flatMap]
      refine ⟨(k, s), GoMap.mem_entries_of_get? hs, ?_⟩
      have : s.liveAt now c.expiryTimes = true := decide_eq_true hlive
      simp only [this, if_true, List.mem_singleton]
    refine ⟨rfl, rfl, ?_, live, fun k s hs he => live k s hs (le_of_eq he.symm)⟩
    simp only [List.length_cons]
    rw [Nat.add_comm]
    congr 1
    generalize c.samples.entries = l
    induction l with
    | nil => rfl
    | cons e l ih =>
      rw [List.flatMap_cons, List.length_append, ih]
      cases h : e.2.liveAt now c.expiryTimes with
      | true =>
        rw [List.countP_cons_of_pos (fun e => e.2.liveAt now c.expiryTimes) l h]
        simp [Nat.add_comm]
      | false =>
        rw [List.countP_cons_of_neg (fun e => e.2.liveAt now c.expiryTimes) l
          (by show ¬ e.2.liveAt now c.expiryTimes = true; rw [h]; exact Bool.false_ne_true)]
        simp

/-- C1, witness: a store holding the sample `cpu{host=a}` at 100 s with a horizon of
10 s, scraped at the boundary 110 s under the name checks of `prometheus.NewDesc`: every
live sample is accepted, and the sample is emitted. -/
theorem Collect_emits_live_samples_witness :
    (collectorA.Collect namesOk (Time.Unix 110 0)).panicked = false ∧
    (collectorA.Collect namesOk (Time.Unix 110 0)).sent = Metric.lastProcessed ::
      collectorA.samples.entries.flatMap (fun e =>
        if e.2.liveAt (Time.Unix 110 0) collectorA.expiryTimes = true
        then [e.2.constMetric] else []) ∧
    (collectorA.Collect namesOk (Time.Unix 110 0)).sent.length
      = 1 + collectorA.samples.entries.countP
        (fun e => e.2.liveAt (Time.Unix 110 0) collectorA.expiryTimes) ∧
    (∀ k s, collectorA.samples.get? k = some s →
      (Time.Unix 110 0).unixNano - collectorA.expiryTimes ≤ s.Timestamp.unixNano →
      s.constMetric ∈ (collectorA.Collect namesOk (Time.Unix 110 0)).sent.tail) ∧
    (∀ k s, collectorA.samples.get? k = some s →
      s.Timestamp.unixNano = (Time.Unix 110 0).unixNano - collectorA.expiryTimes →
      s.constMetric ∈ (collectorA.Collect namesOk (Time.Unix 110 0)).sent.tail) :=
  (Collect_emits_live_samples namesOk collectorA (Time.Unix 110 0)).2.2 (by decide)

/-- C1, counterexample: the record `cpu.idle` with a tag whose name is empty is
submitted by `HandleScoll` with that tag as a label (the sanitisation leaves the empty
name alone); once stored, at a scrape at which the sample is live, `Collect` sends the
liveness gauge and panics in `MustNewConstMetric`, since the empty label name is
rejected: no metric is emitted for the stored live sample. -/
theorem Collect_panics_on_empty_label_name :
    (HandleScoll.record RangeOrder.inOrder (NewScollectorCollector 10000000000)
      emptyTagRecord).2.map (fun s => (s.Name, s.Labels.entries, s.Timestamp))
        = some (emptyTagSample.Name, [("", "v")], Time.Unix 100 0) ∧
    (processSamples.step (NewScollectorCollector 10000000000)
      (.recv emptyTagSample)).samples.keys = ["cpu_idle#=v"] ∧
    emptyTagSample.liveAt (Time.Unix 105 0) 10000000000 = true ∧
    ((processSamples.step (NewScollectorCollector 10000000000)
      (.recv emptyTagSample)).Collect namesOk (Time.Unix 105 0)).sent.length = 1 ∧
    ((processSamples.step (NewScollectorCollector 10000000000)
      (.recv emptyTagSample)).Collect namesOk (Time.Unix 105 0)).panicked = true := by
  decide

/-- The upsert, on the store alone: a second write under the same identity replaces
the first. -/
theorem store_store (c : ScollectorCollector) (X B : scollectorSample)
    (h : X.NameWithLabels = B.NameWithLabels) : (c.store X).store B = c.store B := by
  unfold ScollectorCollector.store
  simp only [ScollectorCollector.mk.injEq, and_true]
  apply GoMap.ext_entries
  simp only [GoMap.set, h]
  rw [GoMap.filter_ne_cons_eq (B.NameWithLabels, X) _ B.NameWithLabels rfl,
    List.filter_filter]
  simp

/-- C2. The write step of the store owner `processSamples` is a last-write-wins upsert:
for samples `A` and `B` of one series identity, receiving `A` and then `B` gives the
store that receiving `B` alone gives; the identity then has exactly one entry, and it is
`B`, whatever the timestamps and values; every other identity keeps its entry; and
receiving a sample twice is receiving it once. -/
theorem store_last_write_wins (c : ScollectorCollector) (A B : scollectorSample)
    (h : A.NameWithLabels = B.NameWithLabels) :
    processSamples.step (processSamples.step c (.recv A)) (.recv B)
      = processSamples.step c (.recv B) ∧
    (processSamples.step (processSamples.step c (.recv A)) (.recv B)).samples.get?
      B.NameWithLabels = some B ∧
    (processSamples.step (processSamples.step c (.recv A)) (.recv B)).samples.keys.count
      B.NameWithLabels = 1 ∧
    (∀ k, k ≠ B.NameWithLabels →
      (processSamples.step (processSamples.step c (.recv A)) (.recv B)).samples.get? k
        = c.samples.get? k) ∧
    processSamples.step (processSamples.step c (.recv B)) (.recv B)
      = processSamples.step c (.recv B) := by
  show (c.store A).store B = c.store B ∧
    ((c.store A).store B).samples.get? B.NameWithLabels = some B ∧
    ((c.store A).store B).samples.keys.count B.NameWithLabels = 1 ∧
    (∀ k, k ≠ B.NameWithLabels →
      ((c.store A).store B).samples.get? k = c.samples.get? k) ∧
    (c.store B).store B = c.store B
  refine ⟨store_store c A B h, ?_, ?_, ?_, store_store c B B rfl⟩
  · exact GoMap.get?_set_self _ _ _
  · apply List.count_eq_one_of_mem ((c.store A).store B).samples.nodupKeys
    exact GoMap.mem_keys_iff.2 ⟨B, GoMap.get?_set_self _ _ _⟩
  · intro k hk
    rw [store_store c A B h]
    exact GoMap.get?_set_ne _ _ _ _ hk

/-- C2, witness: two samples of the series `cpu#host=a` with different values, the
second with the earlier timestamp, received by a fresh collector. -/
theorem store_last_write_wins_witness :
    processSamples.step (processSamples.step (NewScollectorCollector 10) (.recv sampleA))
        (.recv sampleB)
      = processSamples.step (NewScollectorCollector 10) (.recv sampleB) ∧
    (processSamples.step (processSamples.step (NewScollectorCollector 10) (.recv sampleA))
        (.recv sampleB)).samples.get? sampleB.NameWithLabels = some sampleB ∧
    (processSamples.step (processSamples.step (NewScollectorCollector 10) (.recv sampleA))
        (.recv sampleB)).samples.keys.count sampleB.NameWithLabels = 1 ∧
    (∀ k, k ≠ sampleB.NameWithLabels →
      (processSamples.step (processSamples.step (NewScollectorCollector 10) (.recv sampleA))
        (.recv sampleB)).samples.get? k = (NewScollectorCollector 10).samples.get? k) ∧
    processSamples.step (processSamples.step (NewScollectorCollector 10) (.recv sampleB))
        (.recv sampleB)
      = processSamples.step (NewScollectorCollector 10) (.recv sampleB) :=
  store_last_write_wins (NewScollectorCollector 10) sampleA sampleB (by decide)

/-! ## The background sweep against the export filter -/

/-- The deleting loop of the sweep over a list `l` of entries: what is left of a map
`m` are its entries under keys that no expired entry of `l` carries. -/
theorem sweep_fold_entries (p : scollectorSample → Bool)
    (l : List (String × scollectorSample)) (m : GoMap scollectorSample) :
    (l.foldl (fun samples e => if p e.2 = true then samples.delete e.1 else samples) m).entries
      = m.entries.filter (fun x => !(l.any (fun e => p e.2 && decide (e.1 = x.1)))) := by
  induction l generalizing m with
  | nil => simp
  | cons e l ih =>
    rw [List.foldl_cons, ih]
    by_cases h : p e.2 = true
    · rw [if_pos h]
      simp only [GoMap.delete, List.filter_filter]
      apply List.filter_congr
      intro x _
      simp only [List.any_cons, h, Bool.true_and, Bool.not_or, ne_eq, decide_not]
      rw [Bool.and_comm]
      congr 2
      exact decide_eq_decide.2 eq_comm
    · rw [if_neg h]
      apply List.filter_congr
      intro x _
      have h' : p e.2 = false := by simpa using h
      simp only [List.any_cons, h', Bool.false_and, Bool.false_or]

/-- In a key-unique list, an entry shares its key with an expired entry exactly when it
is expired itself. -/
theorem any_expired_same_key (p : scollectorSample → Bool)
    (l : List (String × scollectorSample)) (hnd : (l.map Prod.fst).Nodup)
    (x : String × scollectorSample) (hx : x ∈ l) :
    l.any (fun e => p e.2 && decide (e.1 = x.1)) = p x.2 := by
  have huniq : ∀ e ∈ l, e.1 = x.1 → e = x := by
    intro e he hk
    exact List.inj_on_of_nodup_map hnd he hx hk
  cases hp : p x.2 with
  | true =>
    rw [List.any_eq_true]
    exact ⟨x, hx, by simp [hp]⟩
  | false =>
    rw [List.any_eq_false]
    intro e he
    simp only [Bool.and_eq_true, decide_eq_true_eq, not_and]
    intro hpe hk
    rw [huniq e he hk, hp] at hpe
    cases hpe

/-- The sweep keeps exactly the entries whose timestamp is not before the age limit. -/
theorem sweep_entries (c : ScollectorCollector) (now : Time) :
    (c.sweep now).samples.entries = c.samples.entries.filter
      (fun e => decide (now.unixNano - c.expiryTimes ≤ e.2.Timestamp.unixNano)) := by
  unfold ScollectorCollector.sweep
  simp only []
  rw [sweep_fold_entries (fun s => (now.Add (-c.expiryTimes)).After s.Timestamp)]
  apply List.filter_congr
  intro x hx
  rw [any_expired_same_key (fun s => (now.Add (-c.expiryTimes)).After s.Timestamp) _
    c.samples.nodupKeys x hx]
  by_cases h : x.2.Timestamp.unixNano < now.unixNano - c.expiryTimes
  · rw [(After_ageLimit _ _ _).2 h]
    simp only [Bool.not_true]
    exact (decide_eq_false (by omega)).symm
  · have h' : (now.Add (-c.expiryTimes)).After x.2.Timestamp = false := by
      cases hh : (now.Add (-c.expiryTimes)).After x.2.Timestamp with
      | false => rfl
      | true => exact absurd ((After_ageLimit _ _ _).1 hh) h
    rw [h']
    simp only [Bool.not_false]
    exact (decide_eq_true (by omega)).symm

theorem sweep_expiryTimes (c : ScollectorCollector) (now : Time) :
    (c.sweep now).expiryTimes = c.expiryTimes := rfl

/-- Entries that the export loop would skip can be dropped beforehand. -/
theorem loop_filter (descOk : DescCheck) (ageLimit : Time)
    (keep : String × scollectorSample → Bool) (l : List (String × scollectorSample))
    (ch : List Metric)
    (h : ∀ e ∈ l, keep e = false → ageLimit.After e.2.Timestamp = true) :
    Collect.loop descOk ageLimit ((l.filter keep).map Prod.snd) ch
      = Collect.loop descOk ageLimit (l.map Prod.snd) ch := by
  induction l generalizing ch with
  | nil => rfl
  | cons e l ih =>
    have ih' := fun ch => ih ch (fun x hx => h x (List.mem_cons_of_mem _ hx))
    cases hk : keep e with
    | false =>
      rw [List.filter_cons_of_neg (by rw [hk]; exact Bool.false_ne_true), List.map_cons,
        loop_cons_skip _ _ _ _ _ (h e (List.mem_cons_self _ _) hk), ih']
    | true =>
      rw [List.filter_cons_of_pos hk, List.map_cons, List.map_cons]
      rcases loop_cons_cases descOk ageLimit e.2 with h1 | ⟨h1, hok⟩ | ⟨h1, hok⟩
      · rw [loop_cons_skip _ _ _ _ _ h1, loop_cons_skip _ _ _ _ _ h1, ih']
      · rw [loop_cons_send _ _ _ _ _ h1 hok, loop_cons_send _ _ _ _ _ h1 hok, ih']
      · rw [loop_cons_panic _ _ _ _ _ h1 hok, loop_cons_panic _ _ _ _ _ h1 hok]

/-- Samples that the export loop skips, placed at the end, change nothing. -/
theorem loop_append_skipped (descOk : DescCheck) (ageLimit : Time)
    (xs ys : List scollectorSample) (ch : List Metric)
    (h : ∀ s ∈ ys, ageLimit.After s.Timestamp = true) :
    Collect.loop descOk ageLimit (xs ++ ys) ch = Collect.loop descOk ageLimit xs ch := by
  induction xs generalizing ch with
  | nil =>
    rw [List.nil_append]
    induction ys generalizing ch with
    | nil => rfl
    | cons y ys ih =>
      rw [loop_cons_skip _ _ _ _ _ (h y (List.mem_cons_self _ _)),
        ih (fun s hs => h s (List.mem_cons_of_mem _ hs))]
  | cons x xs ih =>
    rw [List.cons_append]
    rcases loop_cons_cases descOk ageLimit x with h1 | ⟨h1, hok⟩ | ⟨h1, hok⟩
    · rw [loop_cons_skip _ _ _ _ _ h1, loop_cons_skip _ _ _ _ _ h1, ih]
    · rw [loop_cons_send _ _ _ _ _ h1 hok, loop_cons_send _ _ _ _ _ h1 hok, ih]
    · rw [loop_cons_panic _ _ _ _ _ h1 hok, loop_cons_panic _ _ _ _ _ h1 hok]

/-- An entry the sweep at `t1` removes is skipped by the export at any `t2 ≥ t1`. -/
theorem swept_is_skipped (horizon : Duration) (t1 t2 : Time)
    (h : t1.unixNano ≤ t2.unixNano) (s : scollectorSample)
    (hs : decide (t1.unixNano - horizon ≤ s.Timestamp.unixNano) = false) :
    (t2.Add (-horizon)).After s.Timestamp = true := by
  rw [After_ageLimit]
  have := of_decide_eq_false hs
  omega

/-- The export from the swept store, iterated in the order the store had, is the
export from the store itself: the same metrics in the same order, and the same
panic, if any. -/
theorem Collect_sweep (descOk : DescCheck) (c : ScollectorCollector) (t1 t2 : Time)
    (h : t1.unixNano ≤ t2.unixNano) :
    (c.sweep t1).Collect descOk t2 = c.Collect descOk t2 := by
  rw [Collect_eq_loop, Collect_eq_loop, sweep_entries, sweep_expiryTimes]
  apply loop_filter
  intro e _ hk
  exact swept_is_skipped c.expiryTimes t1 t2 h e.2 hk

/-- The swept stores of two stores that hold the same mapping hold the same mapping. -/
theorem sweep_sameMapping (c c2 : ScollectorCollector) (t1 : Time)
    (hexp : c2.expiryTimes = c.expiryTimes)
    (hsame : GoMap.SameMapping c2.samples c.samples) :
    GoMap.SameMapping (c2.sweep t1).samples (c.sweep t1).samples := by
  apply GoMap.sameMapping_of_perm
  rw [sweep_entries, sweep_entries, hexp]
  exact (GoMap.perm_of_sameMapping hsame).filter _

/-- Every iteration order of the swept store comes from an iteration order of the
store itself: the swept entries in their order, followed by the removed ones. -/
theorem sweep_order_lifts (descOk : DescCheck) (c c1 : ScollectorCollector) (t1 t2 : Time)
    (h : t1.unixNano ≤ t2.unixNano) (hexp : c1.expiryTimes = c.expiryTimes)
    (hsame : GoMap.SameMapping c1.samples (c.sweep t1).samples) :
    ∃ c2 : ScollectorCollector, c2.expiryTimes = c.expiryTimes ∧
      GoMap.SameMapping c2.samples c.samples ∧
      c2.Collect descOk t2 = c1.Collect descOk t2 := by
  have hperm1 : c1.samples.entries.Perm (c.samples.entries.filter
      (fun e => decide (t1.unixNano - c.expiryTimes ≤ e.2.Timestamp.unixNano))) := by
    rw [← sweep_entries]
    exact GoMap.perm_of_sameMapping hsame
  have hperm : (c1.samples.entries ++ c.samples.entries.filter
      (fun e => !decide (t1.unixNano - c.expiryTimes ≤ e.2.Timestamp.unixNano))).Perm
      c.samples.entries :=
    (hperm1.append_right _).trans (List.filter_append_perm _ _)
  have hnd : ((c1.samples.entries ++ c.samples.entries.filter
      (fun e => !decide (t1.unixNano - c.expiryTimes ≤ e.2.Timestamp.unixNano))).map
        Prod.fst).Nodup :=
    (hperm.map Prod.fst).nodup_iff.2 c.samples.nodupKeys
  refine ⟨{ c1 with samples := ⟨_, hnd⟩ }, hexp, GoMap.sameMapping_of_perm hperm, ?_⟩
  rw [Collect_eq_loop, Collect_eq_loop]
  show Collect.loop descOk (t2.Add (-c1.expiryTimes))
      ((c1.samples.entries ++ c.samples.entries.filter
        (fun e => !decide (t1.unixNano - c.expiryTimes ≤ e.2.Timestamp.unixNano))).map
          Prod.snd) [Metric.lastProcessed] = _
  rw [List.map_append, loop_append_skipped]
  intro s hs
  obtain ⟨e, he, rfl⟩ := List.mem_map.1 hs
  have hk := (List.mem_filter.1 he).2
  rw [hexp]
  apply swept_is_skipped c.expiryTimes t1 t2 h e.2
  simpa using hk

/-- C10. The background sweep of `processSamples` and the export filter agree.  A
sweep at `t1` removes exactly the entries whose timestamp is before `t1 - h` and keeps
every sample a scrape at `t2 ≥ t1` would still emit.  `Collect` at `t2` from the swept
store, iterated in the order the store had, sends what it sends from the store itself,
the same metrics and the same panic if a live sample has a rejected descriptor; every
iteration order of the swept store arises from one of the store and the other way
round, so the possible outcomes of a scrape are the same with and without the sweep;
and when no sample live at `t2` has a rejected descriptor, the emitted metrics are the
same up to their order in whatever order the swept store is iterated. -/
theorem sweep_agrees_with_Collect (descOk : DescCheck) (c : ScollectorCollector)
    (t1 t2 : Time) (h : t1.unixNano ≤ t2.unixNano) :
    (processSamples.step c (.tick t1)).Collect descOk t2 = c.Collect descOk t2 ∧
    (processSamples.step c (.tick t1)).samples.entries = c.samples.entries.filter
      (fun e => decide (t1.unixNano - c.expiryTimes ≤ e.2.Timestamp.unixNano)) ∧
    (∀ k s, c.samples.get? k = some s →
      t2.unixNano - c.expiryTimes ≤ s.Timestamp.unixNano →
      (processSamples.step c (.tick t1)).samples.get? k = some s) ∧
    (∀ c1 : ScollectorCollector, c1.expiryTimes = c.expiryTimes →
      GoMap.SameMapping c1.samples (processSamples.step c (.tick t1)).samples →
      ∃ c2 : ScollectorCollector, c2.expiryTimes = c.expiryTimes ∧
        GoMap.SameMapping c2.samples c.samples ∧
        c2.Collect descOk t2 = c1.Collect descOk t2) ∧
    (∀ c2 : ScollectorCollector, c2.expiryTimes = c.expiryTimes →
      GoMap.SameMapping c2.samples c.samples →
      ∃ c1 : ScollectorCollector, c1.expiryTimes = c.expiryTimes ∧
        GoMap.SameMapping c1.samples (processSamples.step c (.tick t1)).samples ∧
        c1.Collect descOk t2 = c2.Collect descOk t2) ∧
    ((∀ e ∈ c.samples.entries, e.2.liveAt t2 c.expiryTimes = true →
        descOk e.2.Name e.2.Help e.2.Labels = true) →
      ∀ c1 : ScollectorCollector, c1.expiryTimes = c.expiryTimes →
        GoMap.SameMapping c1.samples (processSamples.step c (.tick t1)).samples →
        (c1.Collect descOk t2).panicked = false ∧ (c.Collect descOk t2).panicked = false ∧
        (c1.Collect descOk t2).sent.Perm (c.Collect descOk t2).sent) := by
  show (c.sweep t1).Collect descOk t2 = c.Collect descOk t2 ∧
    (c.sweep t1).samples.entries = c.samples.entries.filter
      (fun e => decide (t1.unixNano - c.expiryTimes ≤ e.2.Timestamp.unixNano)) ∧
    (∀ k s, c.samples.get? k = some s →
      t2.unixNano - c.expiryTimes ≤ s.Timestamp.unixNano →
      (c.sweep t1).samples.get? k = some s) ∧
    (∀ c1 : ScollectorCollector, c1.expiryTimes = c.expiryTimes →
      GoMap.SameMapping c1.samples (c.sweep t1).samples →
      ∃ c2 : ScollectorCollector, c2.expiryTimes = c.expiryTimes ∧
        GoMap.SameMapping c2.samples c.samples ∧
        c2.Collect descOk t2 = c1.Collect descOk t2) ∧
    (∀ c2 : ScollectorCollector, c2.expiryTimes = c.expiryTimes →
      GoMap.SameMapping c2.samples c.samples →
      ∃ c1 : ScollectorCollector, c1.expiryTimes = c.expiryTimes ∧
        GoMap.SameMapping c1.samples (c.sweep t1).samples ∧
        c1.Collect descOk t2 = c2.Collect descOk t2) ∧
    ((∀ e ∈ c.samples.entries, e.2.liveAt t2 c.expiryTimes = true →
        descOk e.2.Name e.2.Help e.2.Labels = true) →
      ∀ c1 : ScollectorCollector, c1.expiryTimes = c.expiryTimes →
        GoMap.SameMapping c1.samples (c.sweep t1).samples →
        (c1.Collect descOk t2).panicked = false ∧ (c.Collect descOk t2).panicked = false ∧
        (c1.Collect descOk t2).sent.Perm (c.Collect descOk t2).sent)
  refine ⟨Collect_sweep descOk c t1 t2 h, sweep_entries c t1, ?_, ?_, ?_, ?_⟩
  · intro k s hs hlive
    apply GoMap.get?_of_mem_entries
    rw [sweep_entries, List.mem_filter]
    refine ⟨GoMap.mem_entries_of_get? hs, ?_⟩
    simp only [decide_eq_true_eq]
    omega
  · intro c1 hexp hsame
    exact sweep_order_lifts descOk c c1 t1 t2 h hexp hsame
  · intro c2 hexp hsame
    exact ⟨c2.sweep t1, hexp, sweep_sameMapping c c2 t1 hexp hsame,
      Collect_sweep descOk c2 t1 t2 h⟩
  · intro hvalid c1 hexp hsame
    have hperm : c1.samples.entries.Perm (c.sweep t1).samples.entries :=
      GoMap.perm_of_sameMapping hsame
    have hsub : ∀ e ∈ (c.sweep t1).samples.entries, e ∈ c.samples.entries := by
      intro e he
      rw [sweep_entries] at he
      exact (List.mem_filter.1 he).1
    have hv1 : ∀ e ∈ c1.samples.entries, e.2.liveAt t2 c1.expiryTimes = true →
        descOk e.2.Name e.2.Help e.2.Labels = true := by
      intro e he hl
      rw [hexp] at hl
      exact hvalid e (hsub e (hperm.mem_iff.1 he)) hl
    have hv2 : ∀ e ∈ (c.sweep t1).samples.entries,
        e.2.liveAt t2 (c.sweep t1).expiryTimes = true →
        descOk e.2.Name e.2.Help e.2.Labels = true :=
      fun e he hl => hvalid e (hsub e he) hl
    rw [← Collect_sweep descOk c t1 t2 h, Collect_valid descOk c1 t2 hv1,
      Collect_valid descOk (c.sweep t1) t2 hv2, hexp, sweep_expiryTimes]
    exact ⟨rfl, rfl, List.Perm.cons _ (hperm.flatMap_right _)⟩

/-- C10, witness: a store holding a sample at 100 s with a horizon of 10 s, swept at
111 s (the sample is removed) and scraped at 112 s, under the name checks of
`prometheus.NewDesc`. -/
theorem sweep_agrees_with_Collect_witness :
    (processSamples.step collectorA (.tick (Time.Unix 111 0))).Collect namesOk
        (Time.Unix 112 0) = collectorA.Collect namesOk (Time.Unix 112 0) ∧
    (processSamples.step collectorA (.tick (Time.Unix 111 0))).samples.entries
      = collectorA.samples.entries.filter
        (fun e => decide ((Time.Unix 111 0).unixNano - collectorA.expiryTimes
          ≤ e.2.Timestamp.unixNano)) ∧
    (collectorA.sweep (Time.Unix 111 0)).samples.entries.length = 0 ∧
    collectorA.samples.entries.length = 1 :=
  ⟨(sweep_agrees_with_Collect namesOk collectorA (Time.Unix 111 0) (Time.Unix 112 0)
      (by decide)).1,
   (sweep_agrees_with_Collect namesOk collectorA (Time.Unix 111 0) (Time.Unix 112 0)
      (by decide)).2.1, by decide, by decide⟩

/-! ## The batch loop of `HandleScoll` -/

theorem batch_fold_acc (ord : RangeOrder) (batch : List DataPoint)
    (c : ScollectorCollector) (acc : List scollectorSample) :
    batch.foldl
        (fun st m =>
          let res := HandleScoll.record ord st.1 m
          match res.2 with
          | some sample => (res.1, st.2 ++ [sample])
          | none => (res.1, st.2))
        (c, acc)
      = ((HandleScoll.batch ord c batch).1, acc ++ (HandleScoll.batch ord c batch).2) := by
  induction batch generalizing c acc with
  | nil => simp [HandleScoll.batch]
  | cons m rest ih =>
    unfold HandleScoll.batch
    rw [List.foldl_cons, List.foldl_cons]
    cases h : (HandleScoll.record ord c m).2 with
    | none =>
      simp only [h]
      rw [ih, ih (HandleScoll.record ord c m).1 []]
      simp
    | some s =>
      simp only [h]
      rw [ih, ih (HandleScoll.record ord c m).1 ([] ++ [s])]
      simp

/-- The loop, one record at a time: the first record is handled on the collector as it
is, the rest of the batch on the collector it leaves, and what the first record
submits comes first. -/
theorem batch_cons (ord : RangeOrder) (c : ScollectorCollector) (m : DataPoint)
    (rest : List DataPoint) :
    HandleScoll.batch ord c (m :: rest)
      = ((HandleScoll.batch ord (HandleScoll.record ord c m).1 rest).1,
         (HandleScoll.record ord c m).2.toList
           ++ (HandleScoll.batch ord (HandleScoll.record ord c m).1 rest).2) := by
  conv_lhs => unfold HandleScoll.batch
  rw [List.foldl_cons]
  cases h : (HandleScoll.record ord c m).2 with
  | none =>
    simp only [h]
    rw [batch_fold_acc]
    simp
  | some s =>
    simp only [h]
    rw [batch_fold_acc]
    simp

theorem batch_nil (ord : RangeOrder) (c : ScollectorCollector) :
    HandleScoll.batch ord c [] = (c, []) := rfl

theorem batch_append (ord : RangeOrder) (c : ScollectorCollector) (b1 b2 : List DataPoint) :
    HandleScoll.batch ord c (b1 ++ b2)
      = ((HandleScoll.batch ord (HandleScoll.batch ord c b1).1 b2).1,
         (HandleScoll.batch ord c b1).2
           ++ (HandleScoll.batch ord (HandleScoll.batch ord c b1).1 b2).2) := by
  induction b1 generalizing c with
  | nil => simp [batch_nil]
  | cons m rest ih =>
    rw [List.cons_append, batch_cons, ih, batch_cons]
    simp

/-- A record with a non-empty sanitized name and a numeric value submits the sample
built from it and leaves the collector as it is. -/
theorem record_numeric (ord : RangeOrder) (c : ScollectorCollector) (m : DataPoint)
    (v : Float) (hn : m.name ≠ "") (hv : m.Value.numeric? = some v) :
    HandleScoll.record ord c m = (c, some (HandleScoll.sample ord c m m.name v)) := by
  unfold HandleScoll.record
  unfold DataPoint.name at hn
  simp only [hn, if_false]
  unfold DataPoint.name
  cases hval : m.Value <;> rw [hval] at hv <;> simp only [Value.numeric?] at hv <;>
    first
    | (cases hv; rfl)
    | cases hv

/-- A record that is not accepted submits nothing. -/
theorem record_not_accepted (ord : RangeOrder) (c : ScollectorCollector) (m : DataPoint)
    (h : m.accepted = false) : (HandleScoll.record ord c m).2 = none := by
  unfold HandleScoll.record
  unfold DataPoint.accepted DataPoint.name at h
  by_cases hn : ClearName m.Metric true (runeOf 'x') = ""
  · simp only [hn, if_true]
  · simp only [hn, if_false]
    simp only [ne_eq, hn, not_false_eq_true, decide_True, Bool.true_and] at h
    cases hval : m.Value with
    | float64 x => rw [hval] at h; cases h
    | int x => rw [hval] at h; cases h
    | int64 x => rw [hval] at h; cases h
    | int32 x => rw [hval] at h; cases h
    | other => rfl
    | string x =>
      simp only []
      by_cases hx : x ≠ ""
      · rw [if_pos hx]
        cases hz : c.types.get? (ClearName m.Metric true (runeOf 'x')) with
        | none => rfl
        | some z =>
          simp only []
          by_cases hzx : z ≠ x
          · rw [if_pos hzx]
          · rw [if_neg hzx]
      · rw [if_neg hx]

theorem accepted_iff (m : DataPoint) :
    m.accepted = true ↔ m.name ≠ "" ∧ ∃ v, m.Value.numeric? = some v := by
  unfold DataPoint.accepted
  rw [Bool.and_eq_true, decide_eq_true_eq, Option.isSome_iff_exists]

/-- The samples a batch submits are, in batch order, the samples for its accepted
records. -/
theorem batch_submitted (ord : RangeOrder) (c : ScollectorCollector)
    (batch : List DataPoint) :
    List.Forall₂ SubmittedFor (HandleScoll.batch ord c batch).2
      (batch.filter DataPoint.accepted) := by
  induction batch generalizing c with
  | nil => exact List.Forall₂.nil
  | cons m rest ih =>
    rw [batch_cons]
    cases hacc : m.accepted with
    | false =>
      rw [List.filter_cons_of_neg (by simp [hacc]), record_not_accepted ord c m hacc]
      exact ih _
    | true =>
      obtain ⟨hn, v, hv⟩ := (accepted_iff m).1 hacc
      rw [List.filter_cons_of_pos hacc, record_numeric ord c m v hn hv]
      exact List.Forall₂.cons ⟨rfl, hv.symm, rfl⟩ (ih _)

/-- A request that passes the transport checks and decodes to `batch` is answered 204
with an empty body, and submits what the batch loop submits. -/
theorem HandleScoll_ok (ord : RangeOrder) (c : ScollectorCollector) (r : Request)
    (batch : List DataPoint) (hm : r.Method = "POST")
    (hct : r.ContentType = "application/json")
    (hgz : r.ContentEncoding = "gzip" → r.gzipError = none)
    (hdec : r.decoded = .ok batch) :
    c.HandleScoll ord r
      = ((HandleScoll.batch ord c batch).1, (HandleScoll.batch ord c batch).2, ⟨204, ""⟩) := by
  unfold ScollectorCollector.HandleScoll
  have hg : (if r.ContentEncoding = "gzip" then r.gzipError else none) = none := by
    by_cases h : r.ContentEncoding = "gzip"
    · rw [if_pos h, hgz h]
    · rw [if_neg h]
  simp only [hm, hct, ne_eq, not_true_eq_false, if_false, hg, hdec]

/-- C6. For every request that decodes to a batch, `HandleScoll` answers 204 No
Content and submits, in batch order, exactly one sample for each record whose sanitized
metric name is non-empty and whose value is numeric; every other record is skipped
without effect on the records around it.  In particular a batch of one valid numeric
record and one bool-valued record submits exactly one sample and is answered 204. -/
theorem HandleScoll_submits_accepted_records (ord : RangeOrder) (c : ScollectorCollector)
    (r : Request) (batch : List DataPoint) (hm : r.Method = "POST")
    (hct : r.ContentType = "application/json")
    (hgz : r.ContentEncoding = "gzip" → r.gzipError = none)
    (hdec : r.decoded = .ok batch) :
    (c.HandleScoll ord r).2.2.code = 204 ∧
    List.Forall₂ SubmittedFor (c.HandleScoll ord r).2.1 (batch.filter DataPoint.accepted) ∧
    (c.HandleScoll ord r).2.1.length = batch.countP DataPoint.accepted ∧
    (c.HandleScoll ord (Request.ofBatch [numericRecord, boolRecord])).2.1.length = 1 ∧
    (c.HandleScoll ord (Request.ofBatch [numericRecord, boolRecord])).2.2.code = 204 := by
  have hsub := batch_submitted ord c batch
  have hpart := batch_submitted ord c [numericRecord, boolRecord]
  rw [HandleScoll_ok ord c r batch hm hct hgz hdec]
  rw [HandleScoll_ok ord c (Request.ofBatch [numericRecord, boolRecord])
    [numericRecord, boolRecord] rfl rfl (fun _ => rfl) rfl]
  refine ⟨rfl, hsub, ?_, ?_, rfl⟩
  · rw [List.countP_eq_length_filter]
    exact hsub.length_eq
  · have h1 := hpart.length_eq
    rw [h1]
    decide

/-- C6, witness: the batch of one valid numeric record and one bool-valued record, sent
to a fresh collector. -/
theorem HandleScoll_submits_accepted_records_witness :
    ((NewScollectorCollector 10).HandleScoll RangeOrder.inOrder
        (Request.ofBatch [numericRecord, boolRecord])).2.2.code = 204 ∧
    List.Forall₂ SubmittedFor
      ((NewScollectorCollector 10).HandleScoll RangeOrder.inOrder
        (Request.ofBatch [numericRecord, boolRecord])).2.1
      ([numericRecord, boolRecord].filter DataPoint.accepted) ∧
    ((NewScollectorCollector 10).HandleScoll RangeOrder.inOrder
        (Request.ofBatch [numericRecord, boolRecord])).2.1.length
      = [numericRecord, boolRecord].countP DataPoint.accepted ∧
    ((NewScollectorCollector 10).HandleScoll RangeOrder.inOrder
        (Request.ofBatch [numericRecord, boolRecord])).2.1.length = 1 ∧
    ((NewScollectorCollector 10).HandleScoll RangeOrder.inOrder
        (Request.ofBatch [numericRecord, boolRecord])).2.2.code = 204 :=
  HandleScoll_submits_accepted_records RangeOrder.inOrder (NewScollectorCollector 10)
    (Request.ofBatch [numericRecord, boolRecord]) [numericRecord, boolRecord]
    (by decide) (by decide) (fun _ => rfl) rfl

/-! ## The type registry and the kind of a sample -/

/-- The type registry after one record, at a non-empty name: the hint the record
carries for the name, else what the registry held. -/
theorem record_types (ord : RangeOrder) (c : ScollectorCollector) (m : DataPoint)
    (n : String) (hn : n ≠ "") :
    (HandleScoll.record ord c m).1.types.get? n
      = match m.hintFor n with
        | some x => some x
        | none => c.types.get? n := by
  unfold HandleScoll.record DataPoint.hintFor DataPoint.name
  by_cases hname : ClearName m.Metric true (runeOf 'x') = ""
  · have hne : ¬ ClearName m.Metric true (runeOf 'x') = n := by
      rw [hname]; exact fun h => hn h.symm
    simp only [hname, if_true]
    have hne2 : ¬ "" = n := fun h => hn h.symm
    cases m.Value with
    | string x =>
      show c.types.get? n = match (if x ≠ "" ∧ "" = n then some x else none) with
        | some x => some x
        | none => c.types.get? n
      rw [if_neg (fun h => hne2 h.2)]
    | float64 x => rfl
    | int x => rfl
    | int64 x => rfl
    | int32 x => rfl
    | other => rfl
  · simp only [hname, if_false]
    cases hval : m.Value with
    | float64 x => rfl
    | int x => rfl
    | int64 x => rfl
    | int32 x => rfl
    | other => rfl
    | string x =>
      simp only []
      by_cases hx : x ≠ ""
      · rw [if_pos hx]
        by_cases hk : ClearName m.Metric true (runeOf 'x') = n
        · rw [if_pos ⟨hx, hk⟩]
          simp only []
          cases hz : c.types.get? (ClearName m.Metric true (runeOf 'x')) with
          | none =>
            simp only []
            rw [hk]
            exact GoMap.get?_set_self _ _ _
          | some z =>
            simp only []
            by_cases hzx : z ≠ x
            · rw [if_pos hzx]
              simp only []
              rw [hk]
              exact GoMap.get?_set_self _ _ _
            · rw [if_neg hzx]
              simp only []
              rw [← hk, hz]
              congr 1
              exact not_not.1 hzx
        · rw [if_neg (fun h => hk h.2)]
          simp only []
          have hnk : n ≠ ClearName m.Metric true (runeOf 'x') := fun h => hk h.symm
          cases hz : c.types.get? (ClearName m.Metric true (runeOf 'x')) with
          | none =>
            simp only []
            exact GoMap.get?_set_ne _ _ _ _ hnk
          | some z =>
            simp only []
            by_cases hzx : z ≠ x
            · rw [if_pos hzx]
              exact GoMap.get?_set_ne _ _ _ _ hnk
            · rw [if_neg hzx]
      · rw [if_neg hx, if_neg (fun h => hx h.1)]

/-- The type registry after a sequence of records, at a non-empty name, holds the
governing hint. -/
theorem batch_types (ord : RangeOrder) (c : ScollectorCollector) (pre : List DataPoint)
    (n : String) (hn : n ≠ "") :
    (HandleScoll.batch ord c pre).1.types.get? n = governingHint c.types pre n := by
  induction pre generalizing c with
  | nil => rfl
  | cons m rest ih =>
    rw [batch_cons]
    simp only []
    rw [ih, governingHint, governingHint, lastHint]
    cases lastHint n rest with
    | some x => rfl
    | none =>
      simp only []
      rw [record_types ord c m n hn]

theorem getD_eq_counter_iff (types : GoMap String) (n : String) :
    types.getD n = "counter" ↔ types.get? n = some "counter" := by
  unfold GoMap.getD
  cases types.get? n with
  | none => simp
  | some x => simp

/-- C5 (amended). For every sequence of records processed by `HandleScoll`, a numeric
record whose metric name sanitizes to a non-empty name `n` is submitted, with kind
Counter if and only if the hint governing `n` is `counter`: the value of the most recent
earlier string-valued record with a non-empty value whose name sanitizes to `n`, or,
when there is none, what the type registry held before the sequence (nothing, for a
fresh collector); otherwise it is submitted as Gauge.  In particular the record
`{metric: x, value: counter}` followed by `{metric: x, value: 5}` submits `x` as a
Counter, and a string-valued record submits no sample. -/
theorem kind_follows_last_hint (ord : RangeOrder) (c : ScollectorCollector)
    (pre post : List DataPoint) (m : DataPoint) (v : Float)
    (hn : m.name ≠ "") (hv : m.Value.numeric? = some v) :
    (∃ s : scollectorSample,
      (HandleScoll.batch ord c (pre ++ m :: post)).2
        = (HandleScoll.batch ord c pre).2 ++
            s :: (HandleScoll.batch ord (HandleScoll.batch ord c pre).1 post).2 ∧
      SubmittedFor s m ∧
      (s.Typ = ValueType.CounterValue ↔ governingHint c.types pre m.name = some "counter") ∧
      (governingHint c.types pre m.name ≠ some "counter" → s.Typ = ValueType.GaugeValue) ∧
      (c.types = GoMap.empty →
        (s.Typ = ValueType.CounterValue ↔ lastHint m.name pre = some "counter"))) ∧
    (∀ (c1 : ScollectorCollector) (m1 : DataPoint) (x : String),
      m1.Value = Value.string x → (HandleScoll.record ord c1 m1).2 = none) ∧
    (HandleScoll.batch ord (NewScollectorCollector c.expiryTimes)
        [hintRecord, numericRecord]).2.map (fun s => (s.Name, s.Typ))
      = [("x", ValueType.CounterValue)] := by
  refine ⟨⟨HandleScoll.sample ord (HandleScoll.batch ord c pre).1 m m.name v, ?_,
    ⟨rfl, hv.symm, rfl⟩, ?_, ?_, ?_⟩, ?_, ?_⟩
  · rw [batch_append, batch_cons, record_numeric ord _ m v hn hv]
    rfl
  · show (if (HandleScoll.batch ord c pre).1.types.getD m.name = "counter"
        then ValueType.CounterValue else ValueType.GaugeValue) = ValueType.CounterValue ↔ _
    rw [← batch_types ord c pre m.name hn, ← getD_eq_counter_iff]
    by_cases h : (HandleScoll.batch ord c pre).1.types.getD m.name = "counter"
    · simp [h]
    · simp [h]
  · intro h
    show (if (HandleScoll.batch ord c pre).1.types.getD m.name = "counter"
        then ValueType.CounterValue else ValueType.GaugeValue) = ValueType.GaugeValue
    rw [← batch_types ord c pre m.name hn] at h
    rw [if_neg (fun h1 => h ((getD_eq_counter_iff _ _).1 h1))]
  · intro hc
    show (if (HandleScoll.batch ord c pre).1.types.getD m.name = "counter"
        then ValueType.CounterValue else ValueType.GaugeValue) = ValueType.CounterValue ↔ _
    have hg : governingHint c.types pre m.name = lastHint m.name pre := by
      rw [governingHint, hc]
      cases lastHint m.name pre <;> rfl
    rw [← hg, ← batch_types ord c pre m.name hn, ← getD_eq_counter_iff]
    by_cases h : (HandleScoll.batch ord c pre).1.types.getD m.name = "counter"
    · simp [h]
    · simp [h]
  · intro c1 m1 x hx
    apply record_not_accepted
    unfold DataPoint.accepted
    rw [hx]
    simp [Value.numeric?]
  · rw [batch_cons, batch_cons, batch_nil]
    rfl

/-- C5, witness: the hint `{metric: x, value: counter}` followed by the numeric record
`{metric: x, value: 5}`, on a fresh collector. -/
theorem kind_follows_last_hint_witness :
    (∃ s : scollectorSample,
      (HandleScoll.batch RangeOrder.inOrder (NewScollectorCollector 10)
          ([hintRecord] ++ numericRecord :: [])).2
        = (HandleScoll.batch RangeOrder.inOrder (NewScollectorCollector 10) [hintRecord]).2 ++
            s :: (HandleScoll.batch RangeOrder.inOrder
              (HandleScoll.batch RangeOrder.inOrder (NewScollectorCollector 10)
                [hintRecord]).1 []).2 ∧
      SubmittedFor s numericRecord ∧
      (s.Typ = ValueType.CounterValue ↔
        governingHint (NewScollectorCollector 10).types [hintRecord] numericRecord.name
          = some "counter") ∧
      (governingHint (NewScollectorCollector 10).types [hintRecord] numericRecord.name
          ≠ some "counter" → s.Typ = ValueType.GaugeValue) ∧
      ((NewScollectorCollector 10).types = GoMap.empty →
        (s.Typ = ValueType.CounterValue ↔
          lastHint numericRecord.name [hintRecord] = some "counter"))) ∧
    (∀ (c1 : ScollectorCollector) (m1 : DataPoint) (x : String),
      m1.Value = Value.string x →
      (HandleScoll.record RangeOrder.inOrder c1 m1).2 = none) ∧
    (HandleScoll.batch RangeOrder.inOrder
        (NewScollectorCollector (NewScollectorCollector 10).expiryTimes)
        [hintRecord, numericRecord]).2.map (fun s => (s.Name, s.Typ))
      = [("x", ValueType.CounterValue)] :=
  kind_follows_last_hint RangeOrder.inOrder (NewScollectorCollector 10) [hintRecord] []
    numericRecord 5 (by decide) rfl

/-- C5, counterexample: a numeric record whose metric name sanitizes to the empty name
is not submitted at all, neither as a Counter after the hint `counter` for that name,
nor as a Gauge without any hint. -/
theorem nameless_record_not_submitted :
    namelessRecord.name = "" ∧ namelessRecord.Value.numeric?.isSome = true ∧
    lastHint "" [namelessHint] = some "counter" ∧
    (HandleScoll.batch RangeOrder.inOrder (NewScollectorCollector 10)
      [namelessHint, namelessRecord]).2.length = 0 ∧
    lastHint "" [] = none ∧
    (HandleScoll.batch RangeOrder.inOrder (NewScollectorCollector 10)
      [namelessRecord]).2.length = 0 := by
  decide

/-! ## Timestamp normalisation -/

/-- Below ten billion the record timestamp is read as whole seconds. -/
theorem timestamp_seconds_branch (t : Int) (h : t < 10000000000) :
    HandleScoll.timestamp t = Time.Unix t 0 ∧
    (HandleScoll.timestamp t).seconds = t ∧ (HandleScoll.timestamp t).nanosecond = 0 := by
  have hb : HandleScoll.timestamp t = Time.Unix t 0 := by
    unfold HandleScoll.timestamp
    rw [if_neg (by omega)]
  rw [hb]
  refine ⟨rfl, ?_, ?_⟩
  · simp only [Time.seconds, Time.Unix]
    omega
  · simp only [Time.nanosecond, Time.Unix]
    omega

theorem wrapInt64_of_range (x : Int) (h0 : 0 ≤ x) (h1 : x < 9223372036854775808) :
    wrapInt64 x = x := by
  unfold wrapInt64
  norm_num
  omega

/-- From ten billion on, below `2 ^ 53`, what the code computes: the seconds are the
bitwise AND of the timestamp with `10 ^ 10 - 1`, the nanoseconds its remainder modulo
`10 ^ 10` times one million. -/
theorem timestamp_millis_branch (t : Int) (h0 : 10000000000 ≤ t)
    (h1 : t < 9007199254740992) :
    HandleScoll.timestamp t
      = Time.Unix (Int.land t 9999999999) (t % 10000000000 * 1000000) := by
  unfold HandleScoll.timestamp
  rw [if_pos (by omega)]
  have hf : float64OfInt64 t = t := by
    unfold float64OfInt64
    simp only []
    rw [if_pos (by omega)]
  have hm : mathMod t 10000000000 = t % 10000000000 := by
    unfold mathMod
    exact Int.tmod_eq_emod (by omega) (by omega)
  rw [hf, hm]
  have hw : wrapInt64 (t % 10000000000 * Millisecond) = t % 10000000000 * 1000000 := by
    unfold Millisecond
    apply wrapInt64_of_range <;> omega
  rw [hw]
  rfl

/-- C9, the code at the millisecond timestamp 1446570000000 (4 November 2015): it lies
in the range of the claim, and the code makes the instant 1141531264 s plus
6570000000000000 ns, which is 1148101264 s after the epoch (May 2006), not the instant
1446570000000 ms = 1446570000 s after the epoch that the claim states. -/
theorem timestamp_millis_not_decomposed :
    (10000000000 : Int) ≤ 1446570000000 ∧ (1446570000000 : Int) < 9007199254740992 ∧
    HandleScoll.timestamp 1446570000000 = Time.Unix 1141531264 6570000000000000 ∧
    (HandleScoll.timestamp 1446570000000).seconds = 1148101264 ∧
    HandleScoll.timestamp 1446570000000
      ≠ Time.Unix (1446570000000 / 1000) (1446570000000 % 1000 * Millisecond) ∧
    (Time.Unix (1446570000000 / 1000) (1446570000000 % 1000 * Millisecond)).seconds
      = 1446570000 := by
  decide

/-! ## Label sanitisation, `host` to `instance`, and the rename rules -/

theorem sanitizedChar_inv (a : Bool) (p : Char) (i : Nat) (c d : Char)
    (h : sanitizedChar a p i c = d) (h1 : d ≠ '_') (h2 : d ≠ p) : c = d := by
  unfold sanitizedChar at h
  split at h
  · exact absurd h.symm h1
  · split at h
    · exact h
    · exact absurd h.symm h2

/-- A name without underscore and without the placeholder is the sanitized form of
itself only. -/
theorem ClearName_eq_plain (k t : String) (a : Bool) (p : Char) (hp : p ≠ Char.ofNat 0)
    (ht : ∀ d ∈ t.data, d ≠ '_' ∧ d ≠ p) (h : ClearName k a (runeOf p) = t) : k = t := by
  apply String.ext
  apply List.ext_getElem?
  intro i
  have hi : (ClearName k a (runeOf p)).data[i]? = (k.data[i]?).map (sanitizedChar a p i) := by
    rw [ClearName_data k a p hp, stringsMap_getElem?, Nat.zero_add]
  rw [h] at hi
  cases hk : k.data[i]? with
  | none =>
    rw [hk] at hi
    exact hi.symm
  | some c =>
    rw [hk] at hi
    simp only [Option.map_some'] at hi
    rw [hi]
    congr 1
    have hmem : sanitizedChar a p i c ∈ t.data := List.getElem?_mem hi
    exact sanitizedChar_inv a p i c _ rfl (ht _ hmem).1 (ht _ hmem).2

/-- The sanitisation loop leaves alone a label whose name is its own sanitized form and
the sanitized form of no other name, whatever keys the loop visits. -/
theorem sanitizeTags_get?_fixed (k : String)
    (hself : ClearName k false (runeOf 'x') = k)
    (honly : ∀ k1, ClearName k1 false (runeOf 'x') = k → k1 = k)
    (visits : List String) (tags : GoMap String) :
    (HandleScoll.sanitizeTags visits tags).get? k = tags.get? k := by
  induction visits generalizing tags with
  | nil => rfl
  | cons k1 rest ih =>
    unfold HandleScoll.sanitizeTags
    rw [List.foldl_cons]
    have ih' := fun t => ih t
    unfold HandleScoll.sanitizeTags at ih'
    rw [ih']
    by_cases hc : tags.contains k1 = true
    · rw [if_pos hc]
      simp only []
      by_cases hren : ClearName k1 false (runeOf 'x') ≠ "" ∧
          ClearName k1 false (runeOf 'x') ≠ k1
      · rw [if_pos hren]
        have hk1 : k ≠ k1 := by
          intro e
          rw [← e] at hren
          exact hren.2 hself
        have hk2 : k ≠ ClearName k1 false (runeOf 'x') := by
          intro e
          exact hk1 (honly k1 e.symm).symm
        rw [GoMap.get?_delete_ne _ _ _ hk1, GoMap.get?_set_ne _ _ _ _ hk2]
      · rw [if_neg hren]
    · rw [if_neg hc]

theorem ClearName_host_only (k1 : String) (h : ClearName k1 false (runeOf 'x') = "host") :
    k1 = "host" :=
  ClearName_eq_plain k1 "host" false 'x' (by decide) (by decide) h

/-- With no rename rule the renaming loop changes nothing. -/
theorem replaceTags_no_rules (visits : List String) (tags : GoMap String) :
    HandleScoll.replaceTags GoMap.empty visits tags = tags := by
  induction visits generalizing tags with
  | nil => rfl
  | cons k rest ih =>
    unfold HandleScoll.replaceTags
    rw [List.foldl_cons]
    have ih' := fun t => ih t
    unfold HandleScoll.replaceTags at ih'
    rw [GoMap.get?_empty]
    simp only [ite_self]
    exact ih' tags

theorem hostToInstance_of_host (tags : GoMap String) (v : String)
    (h : tags.get? "host" = some v) (hv : v ≠ "") :
    (HandleScoll.hostToInstance tags).get? "instance" = some v ∧
    (HandleScoll.hostToInstance tags).get? "host" = none := by
  unfold HandleScoll.hostToInstance
  rw [GoMap.getD_of_get? h, if_pos hv]
  refine ⟨?_, GoMap.get?_delete_self _ _⟩
  rw [GoMap.get?_delete_ne _ _ _ (by decide)]
  exact GoMap.get?_set_self _ _ _

/-- C7 (amended). For every numeric record that carries a label `host=v` with a
non-empty value `v`, with no label-rename rule configured, the sample `HandleScoll`
submits has the label `instance=v` and no label named `host`; this holds in whatever
order the loops over the tags visit them, and whether or not the record also carried a
label named `instance`. -/
theorem host_label_becomes_instance (ord : RangeOrder) (c : ScollectorCollector)
    (m : DataPoint) (val : Float) (v : String)
    (hrules : c.ReplacingsTags = GoMap.empty)
    (hn : m.name ≠ "") (hval : m.Value.numeric? = some val)
    (hhost : m.Tags.get? "host" = some v) (hv : v ≠ "") :
    ∃ s : scollectorSample, HandleScoll.record ord c m = (c, some s) ∧
      s.Labels.get? "instance" = some v ∧ s.Labels.get? "host" = none := by
  refine ⟨_, record_numeric ord c m val hn hval, ?_⟩
  show (HandleScoll.replaceTags c.ReplacingsTags _ _).get? "instance" = some v ∧
    (HandleScoll.replaceTags c.ReplacingsTags _ _).get? "host" = none
  rw [hrules, replaceTags_no_rules]
  apply hostToInstance_of_host _ v _ hv
  rw [sanitizeTags_get?_fixed "host" (by decide) ClearName_host_only]
  exact hhost

/-- C7, witness: the record `cpu.idle` tagged `host=foo`, on a fresh collector. -/
theorem host_label_becomes_instance_witness :
    ∃ s : scollectorSample,
      HandleScoll.record RangeOrder.inOrder (NewScollectorCollector 10) hostRecord
        = (NewScollectorCollector 10, some s) ∧
      s.Labels.get? "instance" = some "foo" ∧ s.Labels.get? "host" = none :=
  host_label_becomes_instance RangeOrder.inOrder (NewScollectorCollector 10) hostRecord 5
    "foo" rfl (by decide) rfl (by decide) (by decide)

/-- C7, counterexample: a numeric record tagged with the empty value `host=""` and no
label `instance`, with no rename rule: the submitted sample still has the label `host`
and has no label `instance`. -/
theorem empty_host_label_is_kept :
    emptyHostRecord.Tags.get? "host" = some "" ∧
    emptyHostRecord.Tags.get? "instance" = none ∧
    (NewScollectorCollector 10).ReplacingsTags.entries = [] ∧
    (HandleScoll.record RangeOrder.inOrder (NewScollectorCollector 10) emptyHostRecord).2.map
        (fun s => (s.Labels.get? "instance", s.Labels.get? "host"))
      = some (none, some "") := by
  decide

/-- The renaming loop under a single rule `old:new` changes nothing once the tags have
no label `old`. -/
theorem replaceTags_absent (rules : GoMap String) (old new : String)
    (hrule : ∀ k, rules.get? k = if k = old then some new else none)
    (visits : List String) (tags : GoMap String) (h : tags.get? old = none) :
    HandleScoll.replaceTags rules visits tags = tags := by
  induction visits generalizing tags with
  | nil => rfl
  | cons k rest ih =>
    unfold HandleScoll.replaceTags
    rw [List.foldl_cons]
    have ih' := fun t ht => ih t ht
    unfold HandleScoll.replaceTags at ih'
    by_cases hk : k = old
    · have hc : tags.contains k = false := by
        rw [hk, GoMap.contains, h]; rfl
      rw [hc]
      exact ih' tags h
    · rw [hrule k, if_neg hk]
      simp only [ite_self]
      exact ih' tags h

/-- The renaming loop under a single rule `old:new` with `old` different from `new`:
a label `old=v` comes out as `new=v`, and no label `old` is left, whatever sequence of
keys the loop visits, provided it visits `old`. -/
theorem replaceTags_single_rule (rules : GoMap String) (old new v : String)
    (hrule : ∀ k, rules.get? k = if k = old then some new else none)
    (hne : old ≠ new) (visits : List String) (hvis : old ∈ visits)
    (tags : GoMap String) (h : tags.get? old = some v) :
    (HandleScoll.replaceTags rules visits tags).get? new = some v ∧
    (HandleScoll.replaceTags rules visits tags).get? old = none := by
  induction visits generalizing tags with
  | nil => cases hvis
  | cons k rest ih =>
    have hstep : HandleScoll.replaceTags rules (k :: rest) tags
        = HandleScoll.replaceTags rules rest
            (if tags.contains k = true then
              match rules.get? k with
              | some replace => (tags.set replace (tags.getD k)).delete k
              | none => tags
            else tags) := by
      unfold HandleScoll.replaceTags
      rw [List.foldl_cons]
    rw [hstep]
    by_cases hk : k = old
    · have hc : tags.contains k = true := by
        rw [hk, GoMap.contains, h]; rfl
      rw [if_pos hc, hrule k, if_pos hk]
      simp only []
      rw [hk, GoMap.getD_of_get? h]
      have hgone : ((tags.set new v).delete old).get? old = none :=
        GoMap.get?_delete_self _ _
      rw [replaceTags_absent rules old new hrule rest _ hgone]
      refine ⟨?_, hgone⟩
      rw [GoMap.get?_delete_ne _ _ _ (fun e => hne e.symm)]
      exact GoMap.get?_set_self _ _ _
    · rw [hrule k, if_neg hk]
      simp only [ite_self]
      rcases List.mem_cons.1 hvis with hv | hv
      · exact absurd hv.symm hk
      · exact ih hv tags h

/-- Under the single rule `old:new` with `old` different from `new`, no label `old` is
left after the renaming loop, provided the loop visits the keys present at its start. -/
theorem replaceTags_removes_old (rules : GoMap String) (old new : String)
    (hrule : ∀ k, rules.get? k = if k = old then some new else none)
    (hne : old ≠ new) (visits : List String) (tags : GoMap String)
    (hvis : ∀ k ∈ tags.keys, k ∈ visits) :
    (HandleScoll.replaceTags rules visits tags).get? old = none := by
  cases h : tags.get? old with
  | none => rw [replaceTags_absent rules old new hrule visits tags h, h]
  | some v =>
    exact (replaceTags_single_rule rules old new v hrule hne visits
      (hvis old (GoMap.mem_keys_iff.2 ⟨v, h⟩)) tags h).2

theorem collectorWithRule_get? (old new k : String) :
    (collectorWithRule old new).ReplacingsTags.get? k = if k = old then some new else none := by
  show ((GoMap.empty : GoMap String).set old new).get? k = _
  by_cases hk : k = old
  · rw [if_pos hk, hk]
    exact GoMap.get?_set_self _ _ _
  · rw [if_neg hk, GoMap.get?_set_ne _ _ _ _ hk]
    rfl

/-- The part of C8 that holds on the code.  With a single rename rule `old:new` where
`old` differs from `new`, every numeric record that carries `old=v` after the
sanitisation and `host` steps is submitted with the label `new=v` and without a label
`old`; and with the rule `instance:deployment_name` no submitted sample has a label named
`instance`. -/
theorem rename_rule_applies (ord : RangeOrder) (hord : ord.Valid) (old new : String)
    (hne : old ≠ new) (m : DataPoint) (val : Float) (hn : m.name ≠ "")
    (hval : m.Value.numeric? = some val) :
    (∃ s : scollectorSample,
      HandleScoll.record ord (collectorWithRule old new) m
        = (collectorWithRule old new, some s) ∧
      s.Labels.get? old = none ∧
      ∀ v, (HandleScoll.hostToInstance
          (HandleScoll.sanitizeTags (ord.sanitize m.Tags) m.Tags)).get? old = some v →
        s.Labels.get? new = some v) ∧
    (∃ s : scollectorSample,
      HandleScoll.record ord (collectorWithRule "instance" "deployment_name") m
        = (collectorWithRule "instance" "deployment_name", some s) ∧
      s.Labels.get? "instance" = none) := by
  refine ⟨⟨_, record_numeric ord _ m val hn hval, ?_, ?_⟩,
    ⟨_, record_numeric ord _ m val hn hval, ?_⟩⟩
  · exact replaceTags_removes_old _ old new (collectorWithRule_get? old new) hne _ _
      (fun k hk => (hord _ k hk).2)
  · intro v hv
    exact (replaceTags_single_rule _ old new v (collectorWithRule_get? old new) hne _
      ((hord _ old (GoMap.mem_keys_iff.2 ⟨v, hv⟩)).2) _ hv).1
  · exact replaceTags_removes_old _ "instance" "deployment_name"
      (collectorWithRule_get? _ _) (by decide) _ _ (fun k hk => (hord _ k hk).2)

theorem inOrder_valid : RangeOrder.inOrder.Valid := fun _ _ hk => ⟨hk, hk⟩

/-- C8, the code at the rule `a:a`: the record tagged `a=v` carries `a=v` after the
sanitisation and `host` steps, the renaming loop assigns `m.Tags[a] = m.Tags[a]` and then
deletes `a`, and the submitted sample has no label `a`, where the claim states the label
`a=v`. -/
theorem rename_to_itself_drops_label :
    (collectorWithRule "a" "a").ReplacingsTags.entries = [("a", "a")] ∧
    (HandleScoll.hostToInstance
      (HandleScoll.sanitizeTags (RangeOrder.inOrder.sanitize taggedRecord.Tags)
        taggedRecord.Tags)).get? "a" = some "v" ∧
    (HandleScoll.record RangeOrder.inOrder (collectorWithRule "a" "a") taggedRecord).2.map
        (fun s => s.Labels.get? "a") = some none := by
  decide

/-! ## Series identity -/

theorem NameWithLabels_eq (s : scollectorSample) :
    s.NameWithLabels = s.Name ++ "#" ++
      stringsJoin (sortStrings (s.Labels.entries.map (fun e => e.1 ++ "=" ++ e.2))) ";" := by
  unfold scollectorSample.NameWithLabels
  simp only []
  rw [foldl_snoc_map, List.nil_append]

/-- Sorting forgets the order in which the labels were enumerated. -/
theorem sortStrings_eq_of_perm {l₁ l₂ : List String} (h : l₁.Perm l₂) :
    sortStrings l₁ = sortStrings l₂ := by
  unfold sortStrings
  haveI : IsAntisymm String (fun a b => a.data ≤ b.data) :=
    ⟨fun a b h1 h2 => String.ext (le_antisymm h1 h2)⟩
  haveI : IsTotal String (fun a b => a.data ≤ b.data) :=
    ⟨fun a b => le_total a.data b.data⟩
  haveI : IsTrans String (fun a b => a.data ≤ b.data) :=
    ⟨fun a b c h1 h2 => le_trans h1 h2⟩
  apply List.eq_of_perm_of_sorted (r := fun a b => a.data ≤ b.data)
  · exact ((List.perm_insertionSort _ l₁).trans h).trans (List.perm_insertionSort _ l₂).symm
  · exact List.sorted_insertionSort _ l₁
  · exact List.sorted_insertionSort _ l₂

theorem perm_of_sortStrings_eq {l₁ l₂ : List String} (h : sortStrings l₁ = sortStrings l₂) :
    l₁.Perm l₂ := by
  unfold sortStrings at h
  have h1 := List.perm_insertionSort (fun a b : String => a.data ≤ b.data) l₁
  have h2 := List.perm_insertionSort (fun a b : String => a.data ≤ b.data) l₂
  rw [h] at h1
  exact h1.symm.trans h2

/-- Cutting at the first separator: two lists that agree, each being a separator-free
part followed by the separator and a rest, agree part by part. -/
theorem split_first {sep : Char} :
    ∀ (xs xs1 ys ys1 : List Char), sep ∉ xs → sep ∉ xs1 →
      xs ++ sep :: ys = xs1 ++ sep :: ys1 → xs = xs1 ∧ ys = ys1
  | [], [], _, _, _, _, h => ⟨rfl, (List.cons.inj h).2⟩
  | [], c :: xs1, _, _, _, h1, h => by
    have := (List.cons.inj h).1
    exact absurd (this ▸ List.mem_cons_self _ _) h1
  | c :: xs, [], _, _, h0, _, h => by
    have := (List.cons.inj h).1
    exact absurd (this ▸ List.mem_cons_self _ _) h0
  | c :: xs, d :: xs1, ys, ys1, h0, h1, h => by
    have hc := List.cons.inj h
    have := split_first xs xs1 ys ys1 (fun m => h0 (List.mem_cons_of_mem _ m))
      (fun m => h1 (List.mem_cons_of_mem _ m)) hc.2
    exact ⟨by rw [hc.1, this.1], this.2⟩

theorem stringsJoin_cons_data (a : String) (l : List String) :
    (stringsJoin (a :: l) ";").data
      = a.data ++ (match l with
        | [] => []
        | b :: rest => ';' :: (stringsJoin (b :: rest) ";").data) := by
  cases l with
  | nil => simp [stringsJoin]
  | cons b rest =>
    rw [stringsJoin, String.data_append, String.data_append]
    simp

/-- Joining with `;` loses nothing when no element is empty or contains `;`. -/
theorem stringsJoin_injective (l₁ : List String) :
    ∀ (l₂ : List String), (∀ s ∈ l₁, ';' ∉ s.data ∧ s.data ≠ []) →
      (∀ s ∈ l₂, ';' ∉ s.data ∧ s.data ≠ []) →
      (stringsJoin l₁ ";").data = (stringsJoin l₂ ";").data → l₁ = l₂ := by
  induction l₁ with
  | nil =>
    intro l₂ _ h2 h
    cases l₂ with
    | nil => rfl
    | cons a l =>
      rw [stringsJoin_cons_data] at h
      have hnil : a.data = [] := (List.append_eq_nil.1 h.symm).1
      exact absurd hnil (h2 a (List.mem_cons_self _ _)).2
  | cons a l ih =>
    intro l₂ h1 h2 h
    cases l₂ with
    | nil =>
      rw [stringsJoin_cons_data] at h
      have hnil : a.data = [] := (List.append_eq_nil.1 h).1
      exact absurd hnil (h1 a (List.mem_cons_self _ _)).2
    | cons a1 l1 =>
      rw [stringsJoin_cons_data, stringsJoin_cons_data] at h
      have ha := (h1 a (List.mem_cons_self _ _)).1
      have ha1 := (h2 a1 (List.mem_cons_self _ _)).1
      cases l with
      | nil =>
        cases l1 with
        | nil =>
          simp only [List.append_nil] at h
          rw [String.ext h]
        | cons b1 r1 =>
          simp only [List.append_nil] at h
          exact absurd (h ▸ List.mem_append_right _ (List.mem_cons_self _ _)) ha
      | cons b r =>
        cases l1 with
        | nil =>
          simp only [List.append_nil] at h
          exact absurd (h ▸ List.mem_append_right _ (List.mem_cons_self _ _)) ha1
        | cons b1 r1 =>
          simp only [] at h
          obtain ⟨e1, e2⟩ := split_first _ _ _ _ ha ha1 h
          have := ih (b1 :: r1) (fun s hs => h1 s (List.mem_cons_of_mem _ hs))
            (fun s hs => h2 s (List.mem_cons_of_mem _ hs)) e2
          rw [String.ext e1, this]

theorem pair_data (e : String × String) :
    (e.1 ++ "=" ++ e.2).data = e.1.data ++ '=' :: e.2.data := by
  rw [String.data_append, String.data_append]
  simp

/-- The string `name=value` of a label determines the label when the name has no `=`. -/
theorem pair_injective (e e1 : String × String) (h : '=' ∉ e.1.data) (h1 : '=' ∉ e1.1.data)
    (heq : e.1 ++ "=" ++ e.2 = e1.1 ++ "=" ++ e1.2) : e = e1 := by
  have hd := congrArg String.data heq
  rw [pair_data, pair_data] at hd
  obtain ⟨a, b⟩ := split_first _ _ _ _ h h1 hd
  exact Prod.ext (String.ext a) (String.ext b)

theorem pair_clean (e : String × String)
    (h : '=' ∉ e.1.data ∧ ';' ∉ e.1.data ∧ ';' ∉ e.2.data) :
    ';' ∉ (e.1 ++ "=" ++ e.2).data ∧ (e.1 ++ "=" ++ e.2).data ≠ [] := by
  rw [pair_data]
  constructor
  · intro hm
    rcases List.mem_append.1 hm with hm | hm
    · exact h.2.1 hm
    · rcases List.mem_cons.1 hm with hm | hm
      · exact absurd hm (by decide)
      · exact h.2.2 hm
  · intro hnil
    have := (List.append_eq_nil.1 hnil).2
    cases this

theorem NameWithLabels_data (s : scollectorSample) :
    s.NameWithLabels.data = s.Name.data ++ '#' ::
      (stringsJoin (sortStrings (s.Labels.entries.map (fun e => e.1 ++ "=" ++ e.2))) ";").data := by
  rw [NameWithLabels_eq, String.data_append, String.data_append]
  simp

/-- Samples with the same name and the same label mapping have the same identity
string, in whatever order their labels are enumerated. -/
theorem NameWithLabels_congr (s1 s2 : scollectorSample) (hname : s1.Name = s2.Name)
    (hlabels : GoMap.SameMapping s1.Labels s2.Labels) :
    s1.NameWithLabels = s2.NameWithLabels := by
  rw [NameWithLabels_eq, NameWithLabels_eq, hname,
    sortStrings_eq_of_perm ((GoMap.perm_of_sameMapping hlabels).map _)]

/-- Delimiter-free samples with the same identity string have the same name and the
same label mapping. -/
theorem NameWithLabels_injective (s1 s2 : scollectorSample) (h1 : s1.DelimiterFree)
    (h2 : s2.DelimiterFree) (h : s1.NameWithLabels = s2.NameWithLabels) :
    s1.Name = s2.Name ∧ GoMap.SameMapping s1.Labels s2.Labels := by
  have hd := congrArg String.data h
  rw [NameWithLabels_data, NameWithLabels_data] at hd
  obtain ⟨hname, hjoin⟩ := split_first _ _ _ _ h1.1 h2.1 hd
  refine ⟨String.ext hname, ?_⟩
  have clean : ∀ (s : scollectorSample), s.DelimiterFree →
      ∀ x ∈ sortStrings (s.Labels.entries.map (fun e => e.1 ++ "=" ++ e.2)),
        ';' ∉ x.data ∧ x.data ≠ [] := by
    intro s hs x hx
    have hx' : x ∈ s.Labels.entries.map (fun e => e.1 ++ "=" ++ e.2) :=
      (List.perm_insertionSort _ _).mem_iff.1 hx
    obtain ⟨e, he, rfl⟩ := List.mem_map.1 hx'
    exact pair_clean e (hs.2 e he)
  have hsorted := stringsJoin_injective _ _ (clean s1 h1) (clean s2 h2) hjoin
  have hperm := perm_of_sortStrings_eq hsorted
  apply GoMap.sameMapping_of_perm
  rw [List.perm_ext_iff_of_nodup (List.Nodup.of_map _ s1.Labels.nodupKeys)
    (List.Nodup.of_map _ s2.Labels.nodupKeys)]
  intro e
  constructor
  · intro he
    have hm : (fun e : String × String => e.1 ++ "=" ++ e.2) e
        ∈ s2.Labels.entries.map (fun e => e.1 ++ "=" ++ e.2) :=
      hperm.mem_iff.1 (List.mem_map_of_mem _ he)
    obtain ⟨e1, he1, heq⟩ := List.mem_map.1 hm
    rw [← pair_injective e1 e (h2.2 e1 he1).1 (h1.2 e he).1 heq]
    exact he1
  · intro he
    have hm : (fun e : String × String => e.1 ++ "=" ++ e.2) e
        ∈ s1.Labels.entries.map (fun e => e.1 ++ "=" ++ e.2) :=
      hperm.mem_iff.2 (List.mem_map_of_mem _ he)
    obtain ⟨e1, he1, heq⟩ := List.mem_map.1 hm
    rw [← pair_injective e1 e (h1.2 e1 he1).1 (h2.2 e he).1 heq]
    exact he1

/-- C3 (amended). `NameWithLabels` is a faithful series identity on delimiter-free
samples.  For all samples, equal names and equal label mappings (labels enumerated in any
order) give equal identity strings; and for all samples whose names contain no `#`,
whose label names contain no `=` and no `;`, and whose label values contain no `;`, the
identity strings are equal if and only if the names are equal and the labels are the same
mapping. -/
theorem NameWithLabels_faithful (s1 s2 : scollectorSample) :
    (s1.Name = s2.Name ∧ GoMap.SameMapping s1.Labels s2.Labels →
      s1.NameWithLabels = s2.NameWithLabels) ∧
    (s1.DelimiterFree → s2.DelimiterFree →
      (s1.NameWithLabels = s2.NameWithLabels ↔
        s1.Name = s2.Name ∧ GoMap.SameMapping s1.Labels s2.Labels)) :=
  ⟨fun h => NameWithLabels_congr s1 s2 h.1 h.2,
   fun h1 h2 => ⟨NameWithLabels_injective s1 s2 h1 h2,
     fun h => NameWithLabels_congr s1 s2 h.1 h.2⟩⟩

/-- C3, witness: the two enumerations of the labels `a=1`, `b=2` of metric `m` are
delimiter-free, hold the same mapping and have the same identity string. -/
theorem NameWithLabels_faithful_witness :
    collidingB.DelimiterFree ∧ collidingB2.DelimiterFree ∧
    collidingB.Labels.entries ≠ collidingB2.Labels.entries ∧
    collidingB.NameWithLabels = "m#a=1;b=2" ∧
    (collidingB.NameWithLabels = collidingB2.NameWithLabels ↔
      collidingB.Name = collidingB2.Name ∧
        GoMap.SameMapping collidingB.Labels collidingB2.Labels) :=
  ⟨by decide, by decide, by decide, by decide,
    (NameWithLabels_faithful collidingB collidingB2).2 (by decide) (by decide)⟩

/-- C3, counterexample: the label value `1;b=2` contains the delimiters of the identity
string, so the sample `m{a="1;b=2"}` and the sample `m{a="1", b="2"}` have the same
identity string although their label mappings differ. -/
theorem NameWithLabels_collision :
    collidingA.NameWithLabels = collidingB.NameWithLabels ∧
    ¬ (collidingA.Name = collidingB.Name ∧
      GoMap.SameMapping collidingA.Labels collidingB.Labels) := by
  refine ⟨by decide, ?_⟩
  rintro ⟨_, h⟩
  have := h "b"
  revert this
  decide

end Scollector
